
import Mathlib

/-!
Verification development for the declarative-config catalog library
(`src/lib.rs` of rust-mirror-catalog).

Texts are modelled as `List Char`.  Rust's `str::split(pat)` (leftmost,
non-overlapping occurrences of a multi-character pattern) is embedded as
`splitSeq`, written with an explicit fuel so that it is structurally
recursive and computes by kernel reduction; `splitGo_fuel_any` shows the
fuel is irrelevant once it is at least the length of the input.

Filesystem access, the directory walk and the serde decoders are external
collaborators of the code under verification; they enter the embedding as
explicit parameters (`FileAccess`, a walk list, decoder functions).  A Rust
`panic!` / `.unwrap()` / `.expect()` abort is the `Outcome.panicked`
constructor, a `Result::Err` propagated with `?` is `Outcome.errored`.
-/

/-- Boolean test that `p` is a prefix of `t` (used to locate pattern
occurrences the way `str::split` and `str::contains` do). -/
def seqPrefixOf : List Char → List Char → Bool
  | [], _ => true
  | _ :: _, [] => false
  | a :: as, b :: bs => (a == b) && seqPrefixOf as bs

/-- Boolean test that the pattern `sep` occurs somewhere in `s`
(Rust `str::contains` with a string pattern). -/
def containsSeq (sep : List Char) : List Char → Bool
  | [] => seqPrefixOf sep []
  | c :: cs => seqPrefixOf sep (c :: cs) || containsSeq sep cs

/-- Boolean test that the character `c` occurs in `s`
(Rust `str::contains` with a single-character pattern such as `"{"`). -/
def containsChar (c : Char) : List Char → Bool
  | [] => false
  | d :: ds => (d == c) || containsChar c ds

/-- Fuelled worker for `splitSeq`.  With enough fuel it splits `s` at every
leftmost non-overlapping occurrence of `sep`, like Rust `str::split`. -/
def splitGo (sep : List Char) : Nat → List Char → List (List Char)
  | _, [] => [[]]
  | 0, c :: cs => [c :: cs]
  | fuel+1, c :: cs =>
    if seqPrefixOf sep (c :: cs) then [] :: splitGo sep fuel (List.drop (sep.length - 1) cs)
    else
      match splitGo sep fuel cs with
      | [] => [[c]]
      | r :: rs => (c :: r) :: rs

/-- Rust `str::split` on a string pattern: split `s` on the leftmost
non-overlapping occurrences of `sep`. -/
def splitSeq (sep s : List Char) : List (List Char) := splitGo sep s.length s

/-- `ChannelEntry` of `src/lib.rs`: `name` required, the rest optional. -/
structure ChannelEntry where
  name : String
  replaces : Option String
  skips : Option (List String)
  skipRange : Option String
deriving DecidableEq

/-- `RelatedImage` of `src/lib.rs`: both fields required. -/
structure RelatedImage where
  name : String
  image : String
deriving DecidableEq

/-- `DeclarativeConfig` of `src/lib.rs` (the `icon` and `properties` fields are
commented out in the source and so absent here); every field is an `Option`. -/
structure DeclarativeConfig where
  schema : Option String
  name : Option String
  defaultChannel : Option String
  description : Option String
  package : Option String
  entries : Option (List ChannelEntry)
  image : Option String
  relatedImages : Option (List RelatedImage)
deriving DecidableEq

/-- JSON values, the common abstract form the serde decoders work on. -/
inductive Json where
  | null : Json
  | bool : Bool → Json
  | num : Int → Json
  | str : String → Json
  | arr : List Json → Json
  | obj : List (String × Json) → Json

/-- Field lookup as derived serde `Deserialize` sees it: a known field that is
absent yields `some none`, present once yields its value, and a duplicate of a
known field is a decode error (`none`). -/
def getField (k : String) (kvs : List (String × Json)) : Option (Option Json) :=
  match kvs.filter (fun p => p.1 == k) with
  | [] => some none
  | [kv] => some (some kv.2)
  | _ => none

/-- Decoding an `Option<String>` struct field: absent or `null` is `None`, a
string is `Some`, anything else is a decode error. -/
def decOptString : Option Json → Option (Option String)
  | none => some none
  | some .null => some none
  | some (.str s) => some (some s)
  | some _ => none

/-- Decoding a required `String` struct field. -/
def decString : Option Json → Option String
  | some (.str s) => some s
  | _ => none

/-- Decoding the elements of a `Vec<String>`. -/
def decodeStrings : List Json → Option (List String)
  | [] => some []
  | .str s :: rest => (decodeStrings rest).map (s :: ·)
  | _ => none

/-- Decoding an `Option<Vec<String>>` struct field. -/
def decStringList : Option Json → Option (Option (List String))
  | none => some none
  | some .null => some none
  | some (.arr js) => (decodeStrings js).map some
  | some _ => none

/-- serde decode of one `ChannelEntry`. -/
def decodeChannelEntry : Json → Option ChannelEntry
  | .obj kvs => do
    let nf ← getField "name" kvs
    let n ← decString nf
    let rf ← getField "replaces" kvs
    let r ← decOptString rf
    let sf ← getField "skips" kvs
    let sk ← decStringList sf
    let srf ← getField "skipRange" kvs
    let sr ← decOptString srf
    pure ⟨n, r, sk, sr⟩
  | _ => none

/-- serde decode of a list of `ChannelEntry`. -/
def decodeEntryList : List Json → Option (List ChannelEntry)
  | [] => some []
  | j :: rest => do
    let e ← decodeChannelEntry j
    let es ← decodeEntryList rest
    pure (e :: es)

/-- Decoding the `Option<Vec<ChannelEntry>>` field. -/
def decEntriesOpt : Option Json → Option (Option (List ChannelEntry))
  | none => some none
  | some .null => some none
  | some (.arr js) => (decodeEntryList js).map some
  | some _ => none

/-- serde decode of one `RelatedImage`. -/
def decodeRelatedImage : Json → Option RelatedImage
  | .obj kvs => do
    let nf ← getField "name" kvs
    let n ← decString nf
    let imf ← getField "image" kvs
    let im ← decString imf
    pure ⟨n, im⟩
  | _ => none

/-- serde decode of a list of `RelatedImage`. -/
def decodeRelatedList : List Json → Option (List RelatedImage)
  | [] => some []
  | j :: rest => do
    let e ← decodeRelatedImage j
    let es ← decodeRelatedList rest
    pure (e :: es)

/-- Decoding the `Option<Vec<RelatedImage>>` field. -/
def decRelatedOpt : Option Json → Option (Option (List RelatedImage))
  | none => some none
  | some .null => some none
  | some (.arr js) => (decodeRelatedList js).map some
  | some _ => none

/-- serde decode of a `DeclarativeConfig` from a JSON value (the camelCase
field names follow the serde rename attributes of the source). -/
def decodeDC : Json → Option DeclarativeConfig
  | .obj kvs => do
    let sf ← getField "schema" kvs
    let s ← decOptString sf
    let nf ← getField "name" kvs
    let n ← decOptString nf
    let df ← getField "defaultChannel" kvs
    let d ← decOptString df
    let descf ← getField "description" kvs
    let desc ← decOptString descf
    let pf ← getField "package" kvs
    let p ← decOptString pf
    let ef ← getField "entries" kvs
    let es ← decEntriesOpt ef
    let imf ← getField "image" kvs
    let im ← decOptString imf
    let rif ← getField "relatedImages" kvs
    let ri ← decRelatedOpt rif
    pure ⟨s, n, d, desc, p, es, im, ri⟩
  | _ => none

/-- serde encode of an `Option<String>` field (`None` serializes as `null`
because the source carries no skip attribute). -/
def encOptStr : Option String → Json
  | none => .null
  | some s => .str s

/-- serde_json encode of one `ChannelEntry`, fields in declaration order. -/
def encodeChannelEntry (e : ChannelEntry) : Json :=
  .obj [("name", .str e.name), ("replaces", encOptStr e.replaces),
    ("skips", match e.skips with
      | none => .null
      | some l => .arr (l.map .str)),
    ("skipRange", encOptStr e.skipRange)]

/-- serde_json encode of one `RelatedImage`. -/
def encodeRelatedImage (e : RelatedImage) : Json :=
  .obj [("name", .str e.name), ("image", .str e.image)]

/-- serde_json encode of a `DeclarativeConfig` (`serde_json::to_string`),
fields in declaration order, `None` as `null`. -/
def encodeDC (dc : DeclarativeConfig) : Json :=
  .obj [("schema", encOptStr dc.schema), ("name", encOptStr dc.name),
    ("defaultChannel", encOptStr dc.defaultChannel), ("description", encOptStr dc.description),
    ("package", encOptStr dc.package),
    ("entries", match dc.entries with
      | none => .null
      | some es => .arr (es.map encodeChannelEntry)),
    ("image", encOptStr dc.image),
    ("relatedImages", match dc.relatedImages with
      | none => .null
      | some ri => .arr (ri.map encodeRelatedImage))]

/-- `Value` of `src/lib.rs`, the structured form of `Property.value`. -/
structure Value where
  group : Option String
  kind : Option String
  version : Option String
  packageName : Option String
deriving DecidableEq

/-- `impl FromStr for Value` of `src/lib.rs`: the input string is broadcast
into all four fields. -/
def valueFromStr (s : String) : Value :=
  { group := some s, kind := some s, version := some s, packageName := some s }

/-- The raw shapes `deserialize_any` distinguishes for `string_or_struct`:
a string scalar, a map, or anything else (array, number, boolean, null). -/
inductive RawInput where
  | str : String → RawInput
  | map : List (String × Json) → RawInput
  | other : RawInput

/-- serde decode of a `Value` from a JSON map, field by field. -/
def decodeValueObj (kvs : List (String × Json)) : Option Value := do
  let gf ← getField "group" kvs
  let g ← decOptString gf
  let kf ← getField "kind" kvs
  let k ← decOptString kf
  let vf ← getField "version" kvs
  let v ← decOptString vf
  let pf ← getField "packageName" kvs
  let p ← decOptString pf
  pure ⟨g, k, v, p⟩

/-- `string_or_struct` of `src/lib.rs` instantiated at `Value`: a string goes
through `FromStr` (which cannot fail), a map through field decoding, and any
other shape is a decode error. -/
def stringOrStructValue : RawInput → Except String Value
  | .str s => .ok (valueFromStr s)
  | .map kvs =>
    match decodeValueObj kvs with
    | some v => .ok v
    | none => .error "invalid value map"
  | .other => .error "expected string or map"

/-- The chunk boundary of `build_updated_configs`: the literal pattern
of a closing brace, a newline and an opening brace. -/
def boundarySep : List Char := ['}', '\n', '{']

/-- The fallback chunk boundary: closing brace directly followed by an
opening brace. -/
def boundarySepTight : List Char := ['}', '{']

/-- The chunk split of `build_updated_configs` (lines 198-203): split on the
newline boundary; when that produces at most one piece, split on the tight
boundary instead. -/
def splitChunks (s : List Char) : List (List Char) :=
  if (splitSeq boundarySep s).length ≤ 1 then splitSeq boundarySepTight s
  else splitSeq boundarySep s

/-- One iteration of the reconstruction in `build_updated_configs`
(lines 205-218): three sequential non-exclusive `if`s assign into the mutable
`update` variable, so a later branch overwrites an earlier one, and `prev` is
the value left by the previous iteration. -/
def reconstructChunk (l pos : Nat) (item prev : List Char) : List Char :=
  let u1 := if pos = 0 then item ++ ['}'] else prev
  let u2 := if pos = l - 1 then '{' :: item else u1
  if 0 < pos ∧ pos ≤ l - 2 then '{' :: (item ++ ['}']) else u2

/-- The successive values of the `update` variable over the chunk loop of
`build_updated_configs`, threading the previous value into each iteration. -/
def chunkUpdates (l : Nat) : Nat → List Char → List (List Char) → List (List Char)
  | _, _, [] => []
  | pos, prev, item :: rest =>
    let u := reconstructChunk l pos item prev
    u :: chunkUpdates l (pos + 1) u rest

/-- The sequence of reconstructed object texts the blob splitter of
`build_updated_configs` hands to decoding, in original order. -/
def buildUpdatedChunks (s : List Char) : List (List Char) :=
  chunkUpdates (splitChunks s).length 0 [] (splitChunks s)

/-- Join pieces with a separator between consecutive pieces. -/
def joinSep (sep : List Char) : List (List Char) → List Char
  | [] => []
  | [p] => p
  | p :: q :: rest => p ++ sep ++ joinSep sep (q :: rest)

/-- A catalog blob: JSON object texts with body `b` (rendered as an opening
brace, the body, a closing brace) concatenated with a newline between
consecutive objects, so the boundary literal appears at every junction. -/
def catText (bs : List (List Char)) : List Char :=
  joinSep ['\n'] (bs.map (fun b => '{' :: (b ++ ['}'])))

/-- The boundary-split pieces after the first one: interior bodies stay bare
and the final body keeps its closing brace. -/
def midPcs : List (List Char) → List (List Char)
  | [] => []
  | [b] => [b ++ ['}']]
  | b :: q :: rest => b :: midPcs (q :: rest)

/-- Result of running a fallible Rust function: a returned value, a
`Result::Err` propagated with the question-mark operator, or a process abort
through `panic!` / `.unwrap()` / `.expect()`. -/
inductive Outcome (α : Type) where
  | ok : α → Outcome α
  | errored : String → Outcome α
  | panicked : String → Outcome α
deriving DecidableEq

/-- True exactly on `Outcome.ok`. -/
def Outcome.isOk {α : Type} : Outcome α → Bool
  | .ok _ => true
  | _ => false

/-- True exactly on `Outcome.errored`, a propagated explicit error value. -/
def Outcome.isErrored {α : Type} : Outcome α → Bool
  | .errored _ => true
  | _ => false

/-- True exactly on `Outcome.panicked`, an uncontrolled process abort. -/
def Outcome.isPanicked {α : Type} : Outcome α → Bool
  | .panicked _ => true
  | _ => false

/-- What the filesystem does for one path: `File::open` fails, open succeeds
but `read_to_string` fails, or the file is read in full. -/
inductive FileAccess where
  | missing : FileAccess
  | readFail : String → FileAccess
  | content : List Char → FileAccess

def openPanicMsg : String := "could not open file"

def jsonUnwrapMsg : String := "serde json unwrap failed"

def yamlUnwrapMsg : String := "serde yaml unwrap failed"

def componentPanicMsg : String := "component unwrap failed"

def nameUnwrapMsg : String := "name unwrap failed"

def readUnwrapMsg : String := "read operator catalog unwrap failed"

def keyNameUnwrapMsg : String := "key name unwrap failed"

def keySchemaUnwrapMsg : String := "key schema unwrap failed"

/-- `DeclarativeConfig::read_operator_catalog` (lines 151-170): `File::open`
failure panics, `read_to_string` failure propagates with the question-mark
operator, then the text decodes as JSON when it contains an opening brace and
as YAML otherwise, unwrapping (panicking on) any decode error.  The two serde
decoders are external collaborators passed in as functions. -/
def readOperatorCatalog (jd yd : List Char → Option DeclarativeConfig)
    (fs : List Char → FileAccess) (inFile : List Char) : Outcome DeclarativeConfig :=
  match fs inFile with
  | .missing => .panicked openPanicMsg
  | .readFail e => .errored e
  | .content s =>
    if containsChar '{' s then
      match jd s with
      | some dc => .ok dc
      | none => .panicked jsonUnwrapMsg
    else
      match yd s with
      | some dc => .ok dc
      | none => .panicked yamlUnwrapMsg

def configsLit : List Char := "/configs/".toList

def catalogLit : List Char := "catalog.json".toList

def updatedConfigsSeg : List Char := "/updated-configs/".toList

def jsonSuffix : List Char := ".json".toList

/-- The chunk loop of `build_updated_configs` (lines 205-242): each chunk is
reconstructed, decoded, and either written (path from the directory prefix,
the unwrapped record name, content the re-encoded record) or reported with an
error diagnostic naming the component; a record whose `name` is absent
panics on the unwrap at line 226.  Returns the writes and the diagnostics in
order, or the abort. -/
def chunkLoop (decode : List Char → Option DeclarativeConfig) (comp dir : List Char) (l : Nat) :
    Nat → List Char → List (List Char) → Outcome (List (List Char × Json) × List (List Char))
  | _, _, [] => .ok ([], [])
  | pos, prev, item :: rest =>
    let u := reconstructChunk l pos item prev
    match decode u with
    | some dc =>
      match dc.name with
      | none => .panicked nameUnwrapMsg
      | some nm =>
        match chunkLoop decode comp dir l (pos + 1) u rest with
        | .ok (ws, ds) =>
          .ok ((dir ++ updatedConfigsSeg ++ nm.toList ++ jsonSuffix, encodeDC dc) :: ws, ds)
        | .errored e => .errored e
        | .panicked m => .panicked m
    | none =>
      match chunkLoop decode comp dir l (pos + 1) u rest with
      | .ok (ws, ds) => .ok (ws, comp :: ds)
      | .errored e => .errored e
      | .panicked m => .panicked m

/-- Processing of one visited regular file in `build_updated_configs`
(lines 177-244), in source order: `File::open` (panic on failure), the
`/configs/` component unwrap (line 186, panic when the path has no such
segment), `read_to_string` (error propagation), then the brace and
`catalog.json` classification guarding the chunk loop. -/
def stepFile (decode : List Char → Option DeclarativeConfig) (fs : List Char → FileAccess)
    (fileName : List Char) : Outcome (List (List Char × Json) × List (List Char)) :=
  match fs fileName with
  | .missing => .panicked openPanicMsg
  | .readFail e =>
    match (splitSeq configsLit fileName)[1]? with
    | none => .panicked componentPanicMsg
    | some _ => .errored e
  | .content s =>
    match (splitSeq configsLit fileName)[1]? with
    | none => .panicked componentPanicMsg
    | some comp =>
      if containsChar '{' s then
        if containsSeq catalogLit fileName then
          chunkLoop decode comp ((splitSeq catalogLit fileName).headD []) (splitChunks s).length
            0 [] (splitChunks s)
        else .ok ([], [])
      else .ok ([], [])

/-- `DeclarativeConfig::build_updated_configs` (lines 172-248) over the list
of regular files the directory walk visits, accumulating writes and
diagnostics; an error or panic in one file ends the walk. -/
def buildUpdatedConfigs (decode : List Char → Option DeclarativeConfig)
    (fs : List Char → FileAccess) : List (List Char) →
    Outcome (List (List Char × Json) × List (List Char))
  | [] => .ok ([], [])
  | f :: rest =>
    match stepFile decode fs f with
    | .ok (ws, ds) =>
      match buildUpdatedConfigs decode fs rest with
      | .ok (ws2, ds2) => .ok (ws ++ ws2, ds ++ ds2)
      | .errored e => .errored e
      | .panicked m => .panicked m
    | .errored e => .errored e
    | .panicked m => .panicked m

/-- The writes the chunk loop performs for a given list of reconstructed
texts: one per text that decodes with a present name. -/
def expectedWrites (decode : List Char → Option DeclarativeConfig) (dir : List Char)
    (us : List (List Char)) : List (List Char × Json) :=
  us.filterMap (fun u =>
    match decode u with
    | some dc =>
      match dc.name with
      | some nm => some (dir ++ updatedConfigsSeg ++ nm.toList ++ jsonSuffix, encodeDC dc)
      | none => none
    | none => none)

/-- The diagnostics the chunk loop emits: one per reconstructed text that
fails to decode, each naming the component. -/
def expectedDiags (decode : List Char → Option DeclarativeConfig) (comp : List Char)
    (us : List (List Char)) : List (List Char) :=
  us.filterMap (fun u =>
    match decode u with
    | some _ => none
    | none => some comp)

/-- HashMap-style insert into the association list modelling the index map:
the new binding replaces any previous binding of the same key. -/
def mapInsert (k : List Char) (v : DeclarativeConfig)
    (m : List (List Char × DeclarativeConfig)) : List (List Char × DeclarativeConfig) :=
  (k, v) :: m.filter (fun p => !(p.1 == k))

/-- `DeclarativeConfig::get_declarativeconfig_map` (lines 250-271) over the
walk list of file names: each file is read through `read_operator_catalog`
with `.unwrap()` (panicking when that returns an error), the `name` and
`schema` fields are unwrapped (panicking when absent), and the record is
inserted under the key `name=schema`.  The source reads the file twice; both
reads see the same pure filesystem, so the second read is the same record. -/
def getDCMapGo (jd yd : List Char → Option DeclarativeConfig) (fs : List Char → FileAccess)
    (baseDir : List Char) : List (List Char) → List (List Char × DeclarativeConfig) →
    Outcome (List (List Char × DeclarativeConfig))
  | [], m => .ok m
  | f :: rest, m =>
    match readOperatorCatalog jd yd fs (baseDir ++ f) with
    | .panicked msg => .panicked msg
    | .errored _ => .panicked readUnwrapMsg
    | .ok res =>
      match res.name with
      | none => .panicked keyNameUnwrapMsg
      | some nm =>
        match res.schema with
        | none => .panicked keySchemaUnwrapMsg
        | some sc =>
          getDCMapGo jd yd fs baseDir rest (mapInsert (nm.toList ++ '=' :: sc.toList) res m)

/-- Entry point of the indexer: empty accumulator. -/
def getDeclarativeconfigMap (jd yd : List Char → Option DeclarativeConfig)
    (fs : List Char → FileAccess) (baseDir : List Char) (walk : List (List Char)) :
    Outcome (List (List Char × DeclarativeConfig)) :=
  getDCMapGo jd yd fs baseDir walk []

/-- True when the file read produced a record carrying both identity
fields. -/
def okBoth : Outcome DeclarativeConfig → Bool
  | .ok dc => dc.name.isSome && dc.schema.isSome
  | _ => false

/-- The index map the walk produces when every file decodes with both
identity fields present. -/
def mapOfWalk (jd yd : List Char → Option DeclarativeConfig) (fs : List Char → FileAccess)
    (baseDir : List Char) : List (List Char) → List (List Char × DeclarativeConfig) →
    List (List Char × DeclarativeConfig)
  | [], m => m
  | f :: rest, m =>
    match readOperatorCatalog jd yd fs (baseDir ++ f) with
    | .ok res =>
      match res.name, res.schema with
      | some nm, some sc => mapOfWalk jd yd fs baseDir rest (mapInsert (nm.toList ++ '=' :: sc.toList) res m)
      | _, _ => m
    | _ => m

/-- Decimal digit test. -/
def isDigitCh (c : Char) : Bool := ('0' ≤ c) && (c ≤ '9')

/-- Drop a leading run of digits. -/
def dropDigits : List Char → List Char
  | [] => []
  | c :: cs => if isDigitCh c then dropDigits cs else c :: cs

/-- After the integer part of a numeric literal: consume a fractional part
(a dot followed by at least one digit), otherwise leave the text alone. -/
def fracTail : List Char → List Char
  | '.' :: d :: ds => if isDigitCh d then dropDigits ds else '.' :: d :: ds
  | r => r

/-- Parse a numeric literal (digits, optional dot plus digits) at the head of
the text; `some rest` is the text after the literal. -/
def numTail : List Char → Option (List Char)
  | [] => none
  | c :: cs => if isDigitCh c then some (fracTail (dropDigits cs)) else none

/-- The quoted-numeric alternative of the malformed value shapes: a quote,
a numeric literal, then a closing quote at the head of the text. -/
def quotedTail (rest : List Char) : Option (List Char) :=
  match numTail rest with
  | some (c :: r2) => if c = '"' then some r2 else none
  | _ => none

/-- The `null` alternative of the malformed value shapes: the JSON `null`
literal at the head of the text. -/
def nullTail : List Char → Option (List Char)
  | c1 :: c2 :: c3 :: c4 :: r =>
    if c1 = 'n' ∧ c2 = 'u' ∧ c3 = 'l' ∧ c4 = 'l' then some r else none
  | _ => none

/-- The quoted-numeric and null alternatives of the malformed value shapes
at the head of the text. -/
def quotedOrNullTail : List Char → Option (List Char)
  | [] => none
  | c :: rest => if c = '"' then quotedTail rest else nullTail (c :: rest)

/-- Modelled from the spec: the malformed value shapes the Value Repair
Filter rewrites (the filter itself is not part of `src/`, only its
specification); `some rest` consumes a bare numeric literal, a quoted
numeric literal, or the JSON `null` literal. -/
def badValueTail (s : List Char) : Option (List Char) :=
  match numTail s with
  | some r => some r
  | none => quotedOrNullTail s

/-- The property marker the repair filter looks for: a quoted `value` key,
a colon and a space. -/
def valueMarker : List Char := ['"', 'v', 'a', 'l', 'u', 'e', '"', ':', ' ']

/-- The canonical placeholder object text that replaces a malformed value. -/
def placeholderTail : List Char :=
  ['{', '"', 'g', 'r', 'o', 'u', 'p', '"', ':', '"', '"', '}']

/-- The full replacement text: the marker followed by the placeholder. -/
def placeholderText : List Char := valueMarker ++ placeholderTail

/-- A malformed value occurrence starts here: the marker followed by one of
the bad value shapes. -/
def malformedHead (s : List Char) : Bool :=
  seqPrefixOf valueMarker s && (badValueTail (List.drop 9 s)).isSome

/-- No malformed value occurrence starts at any position of `s`. -/
def noMalformed : List Char → Bool
  | [] => true
  | c :: cs => !malformedHead (c :: cs) && noMalformed cs

/-- Fuelled worker for `repairValues`. -/
def repairGo : Nat → List Char → List Char
  | _, [] => []
  | 0, c :: cs => c :: cs
  | fuel+1, c :: cs =>
    if seqPrefixOf valueMarker (c :: cs) then
      match badValueTail (List.drop 9 (c :: cs)) with
      | some rest => placeholderText ++ repairGo fuel rest
      | none => c :: repairGo fuel cs
    else c :: repairGo fuel cs

/-- Modelled from the spec: the Value Repair Filter (absent from `src/`,
specified in section 4.3 of the spec), a textual left-to-right rewrite that
replaces every occurrence of the marker followed by a bare numeric literal,
a quoted numeric literal, or `null` with the canonical placeholder, and
copies every other character unchanged. -/
def repairValues (s : List Char) : List Char := repairGo s.length s

/-- The text does not begin mid-number: its head is not a digit and not a
dot-digit continuation, so a numeric parse ending just before it stops
there. -/
def sepOk : List Char → Bool
  | [] => true
  | [c] => !(isDigitCh c)
  | c :: d :: _ => !(isDigitCh c) && !((c == '.') && isDigitCh d)

/-- The token is exactly one of the bad value shapes, consumed in full. -/
def badShape (v : List Char) : Bool := badValueTail v == some []

/-- Text carrying a malformed value occurrence before each following
segment: marker, bad token, then the segment, repeatedly. -/
def occText : List (List Char × List Char) → List Char
  | [] => []
  | (v, seg) :: rest => valueMarker ++ v ++ seg ++ occText rest

/-- The same text after repair: each marker and bad token replaced by the
placeholder, segments untouched. -/
def occRepaired : List (List Char × List Char) → List Char
  | [] => []
  | (_, seg) :: rest => placeholderText ++ seg ++ occRepaired rest

/-- A record with both identity fields, used as concrete decoder output. -/
def cDcNamed : DeclarativeConfig :=
  ⟨some "olm.package", some "pkg", none, none, none, none, none, none⟩

/-- A record whose `name` is absent. -/
def cDcNoName : DeclarativeConfig :=
  ⟨some "olm.package", none, none, none, none, none, none, none⟩

/-- A record whose `schema` is absent. -/
def cDcNoSchema : DeclarativeConfig :=
  ⟨none, some "pkg", none, none, none, none, none, none⟩

/-- A decoder that always fails. -/
def cDecodeNone : List Char → Option DeclarativeConfig := fun _ => none

/-- A decoder that always yields the nameless record. -/
def cDecodeNoName : List Char → Option DeclarativeConfig := fun _ => some cDcNoName

/-- A decoder that always yields the schemaless record. -/
def cDecodeNoSchema : List Char → Option DeclarativeConfig := fun _ => some cDcNoSchema

/-- A decoder succeeding exactly on the first reconstructed chunk of the
two-chunk example. -/
def cDecodeC5 : List Char → Option DeclarativeConfig :=
  fun u => if u = ['x', '}'] then some cDcNamed else none

/-- A decoder failing on the first reconstructed chunk of the two-chunk
example and yielding the nameless record on every other text. -/
def cDecodeMixed : List Char → Option DeclarativeConfig :=
  fun u => if u = ['x', '}'] then none else some cDcNoName

/-- A filesystem on which every file holds the two-object blob whose first
chunk fails to decode under `cDecodeMixed` and whose second decodes to the
nameless record. -/
def cFsC5Mixed : List Char → FileAccess :=
  fun _ => .content ['x', '}', '\n', '{', 'y']

/-- A filesystem on which every open fails. -/
def cFsMissing : List Char → FileAccess := fun _ => .missing

/-- A filesystem on which every read fails after a successful open. -/
def cFsReadFail : List Char → FileAccess := fun _ => .readFail "disk error"

/-- A filesystem on which every file holds a single opening brace. -/
def cFsBrace : List Char → FileAccess := fun _ => .content ['{']

/-- A catalog file path inside a configs directory. -/
def cCatalogPath : List Char := "/a/configs/catalog.json".toList

/-- A second file path inside a configs directory. -/
def cOtherPath : List Char := "/a/configs/other.json".toList

/-- A concrete JSON object with `schema` and `name`, for the round-trip
witness. -/
def cJsonRecord : Json := .obj [("schema", .str "olm.package"), ("name", .str "pkg")]

/-- A complete single JSON object text containing neither boundary
literal. -/
def cSingleObj : List Char := ['{', '"', 'a', '"', ':', '1', '}']
theorem splitGo_fuel_any (sep : List Char) :
    ∀ f g s, s.length ≤ f → s.length ≤ g → splitGo sep f s = splitGo sep g s := by
  intro f
  induction f with
  | zero =>
    intro g s hf _
    cases s with
    | nil => cases g <;> rfl
    | cons c cs => simp at hf
  | succ f ih =>
    intro g s hf hg
    cases s with
    | nil => cases g <;> rfl
    | cons c cs =>
      cases g with
      | zero => simp at hg
      | succ g =>
        simp only [splitGo]
        have hdf : (List.drop (sep.length - 1) cs).length ≤ f := by
          simp only [List.length_drop]; simp at hf; omega
        have hdg : (List.drop (sep.length - 1) cs).length ≤ g := by
          simp only [List.length_drop]; simp at hg; omega
        rw [ih g _ hdf hdg, ih g cs (by simp at hf; omega) (by simp at hg; omega)]

theorem splitSeq_nil (sep : List Char) : splitSeq sep [] = [[]] := rfl

theorem splitSeq_pos (sep c cs) (h : seqPrefixOf sep (c :: cs) = true) :
    splitSeq sep (c :: cs) = [] :: splitSeq sep (List.drop (sep.length - 1) cs) := by
  show splitGo sep (cs.length + 1) (c :: cs) = _
  simp only [splitGo, h, if_true]
  rw [splitGo_fuel_any sep cs.length (List.drop (sep.length - 1) cs).length _ (by simp) (le_refl _)]
  rfl

theorem splitSeq_neg (sep c cs) (h : seqPrefixOf sep (c :: cs) = false) :
    splitSeq sep (c :: cs) =
      match splitSeq sep cs with
      | [] => [[c]]
      | r :: rs => (c :: r) :: rs := by
  show splitGo sep (cs.length + 1) (c :: cs) = _
  simp only [splitGo, h]
  rfl

theorem splitSeq_ne_nil (sep s) : splitSeq sep s ≠ [] := by
  induction s with
  | nil => simp [splitSeq, splitGo]
  | cons c cs ih =>
    by_cases h : seqPrefixOf sep (c :: cs) = true
    · rw [splitSeq_pos sep c cs h]; simp
    · rw [splitSeq_neg sep c cs (by simpa using h)]
      cases hs : splitSeq sep cs <;> simp

theorem seqPrefixOf_iff_take (p : List Char) :
    ∀ t, seqPrefixOf p t = true ↔ p = t.take p.length := by
  induction p with
  | nil => intro t; simp [seqPrefixOf]
  | cons a as ih =>
    intro t
    cases t with
    | nil => simp [seqPrefixOf]
    | cons b bs =>
      simp only [seqPrefixOf, Bool.and_eq_true, beq_iff_eq, List.length_cons, List.take_succ_cons,
        List.cons.injEq]
      exact and_congr Iff.rfl (ih bs)

theorem seqPrefixOf_length_le (p t : List Char) (h : seqPrefixOf p t = true) :
    p.length ≤ t.length := by
  rw [seqPrefixOf_iff_take] at h
  have := congrArg List.length h
  simp only [List.length_take] at this
  omega

theorem seqPrefixOf_append (p t : List Char) : seqPrefixOf p (p ++ t) = true := by
  induction p with
  | nil => rfl
  | cons a as ih => simp [seqPrefixOf, ih]

theorem splitSeq_eq_single (sep s : List Char) (h : containsSeq sep s = false) :
    splitSeq sep s = [s] := by
  induction s with
  | nil =>
    simp only [containsSeq] at h
    simp [splitSeq, splitGo]
  | cons c cs ih =>
    simp only [containsSeq, Bool.or_eq_false_iff] at h
    rw [splitSeq_neg sep c cs h.1, ih h.2]

theorem containsSeq_of_seqPrefixOf (sep s : List Char) (h : seqPrefixOf sep s = true) :
    containsSeq sep s = true := by
  cases s with
  | nil => simpa [containsSeq] using h
  | cons c cs => simp [containsSeq, h]

theorem containsSeq_tail (sep c cs) (h : containsSeq sep (c :: cs) = false) :
    containsSeq sep cs = false := by
  simp only [containsSeq, Bool.or_eq_false_iff] at h
  exact h.2

theorem splitSeq_length_ge_two (sep s : List Char) (hsep : sep ≠ [])
    (h : containsSeq sep s = true) : 2 ≤ (splitSeq sep s).length := by
  induction s with
  | nil =>
    simp only [containsSeq, seqPrefixOf_iff_take, List.take_nil] at h
    exact absurd h hsep
  | cons c cs ih =>
    by_cases hp : seqPrefixOf sep (c :: cs) = true
    · rw [splitSeq_pos sep c cs hp]
      have := splitSeq_ne_nil sep (List.drop (sep.length - 1) cs)
      cases hs : splitSeq sep (List.drop (sep.length - 1) cs) with
      | nil => exact absurd hs this
      | cons r rs => simp
    · simp only [containsSeq, hp, Bool.false_or] at h
      rw [splitSeq_neg sep c cs (by simpa using hp)]
      rcases hs : splitSeq sep cs with _ | ⟨r, rs⟩
      · exact absurd hs (splitSeq_ne_nil sep cs)
      · have := ih h
        rw [hs] at this
        simpa using this

theorem decOptString_enc (x : Option String) : decOptString (some (encOptStr x)) = some x := by
  cases x <;> rfl

theorem decodeStrings_map (l : List String) : decodeStrings (l.map .str) = some l := by
  induction l with
  | nil => rfl
  | cons s rest ih => simp [decodeStrings, ih]

theorem decStringList_enc (x : Option (List String)) :
    decStringList (some (match x with
      | none => Json.null
      | some l => Json.arr (l.map Json.str))) = some x := by
  cases x with
  | none => rfl
  | some l => simp [decStringList, decodeStrings_map]

theorem decodeChannelEntry_enc (e : ChannelEntry) :
    decodeChannelEntry (encodeChannelEntry e) = some e := by
  obtain ⟨n, r, sk, sr⟩ := e
  simp [decodeChannelEntry, encodeChannelEntry, getField, decString, decOptString_enc,
    decStringList_enc, List.filter]

theorem decodeEntryList_map (es : List ChannelEntry) :
    decodeEntryList (es.map encodeChannelEntry) = some es := by
  induction es with
  | nil => rfl
  | cons e rest ih => simp [decodeEntryList, decodeChannelEntry_enc e, ih]

theorem decEntriesOpt_enc (x : Option (List ChannelEntry)) :
    decEntriesOpt (some (match x with
      | none => Json.null
      | some es => Json.arr (es.map encodeChannelEntry))) = some x := by
  cases x with
  | none => rfl
  | some es => simp [decEntriesOpt, decodeEntryList_map]

theorem decodeRelatedImage_enc (e : RelatedImage) :
    decodeRelatedImage (encodeRelatedImage e) = some e := by
  obtain ⟨n, im⟩ := e
  simp [decodeRelatedImage, encodeRelatedImage, getField, decString, List.filter]

theorem decodeRelatedList_map (es : List RelatedImage) :
    decodeRelatedList (es.map encodeRelatedImage) = some es := by
  induction es with
  | nil => rfl
  | cons e rest ih => simp [decodeRelatedList, decodeRelatedImage_enc e, ih]

theorem decRelatedOpt_enc (x : Option (List RelatedImage)) :
    decRelatedOpt (some (match x with
      | none => Json.null
      | some es => Json.arr (es.map encodeRelatedImage))) = some x := by
  cases x with
  | none => rfl
  | some es => simp [decRelatedOpt, decodeRelatedList_map]

theorem decodeDC_enc (dc : DeclarativeConfig) : decodeDC (encodeDC dc) = some dc := by
  obtain ⟨s, n, d, desc, p, es, im, ri⟩ := dc
  simp [decodeDC, encodeDC, getField, decOptString_enc, decEntriesOpt_enc, decRelatedOpt_enc,
    List.filter]

/-- C9: for every JSON value that decodes into a `DeclarativeConfig`,
re-encoding the record with the serde serializer and decoding again yields
the same record, field by field over the modelled fields. -/
theorem decode_reencode_roundtrip (j : Json) (dc : DeclarativeConfig)
    (h : decodeDC j = some dc) : decodeDC (encodeDC dc) = some dc :=
  decodeDC_enc dc

/-- Witness for C9 at a concrete two-field object. -/
theorem decode_reencode_roundtrip_witness :
    decodeDC cJsonRecord = some cDcNamed ∧ decodeDC (encodeDC cDcNamed) = some cDcNamed :=
  ⟨rfl, decode_reencode_roundtrip cJsonRecord cDcNamed rfl⟩

/-- C8: the flexible value decoder broadcasts a string input into all four
fields of `Value`; in particular the input string `foo` decodes to the
record with every field `foo`. -/
theorem string_broadcast_value :
    (∀ s, stringOrStructValue (.str s) = .ok ⟨some s, some s, some s, some s⟩) ∧
      stringOrStructValue (.str "foo") =
        .ok ⟨some "foo", some "foo", some "foo", some "foo"⟩ :=
  ⟨fun _ => rfl, rfl⟩

/-- C2 (divergent from the spec): when neither boundary literal occurs in
the input, the chunk list is the whole input, and because the first-chunk
and last-chunk branches both fire at position zero with the last assignment
winning, the sole reconstructed text is the input with an opening brace
prepended, not the input itself. -/
theorem single_object_gets_brace_prepended (s : List Char)
    (h1 : containsSeq boundarySep s = false)
    (h2 : containsSeq boundarySepTight s = false) :
    buildUpdatedChunks s = ['{' :: s] := by
  have e1 : splitSeq boundarySep s = [s] := splitSeq_eq_single _ _ h1
  have e2 : splitSeq boundarySepTight s = [s] := splitSeq_eq_single _ _ h2
  have hc : splitChunks s = [s] := by simp [splitChunks, e1, e2]
  simp [buildUpdatedChunks, hc, chunkUpdates, reconstructChunk]

/-- Witness for C2: a concrete single-object text is reconstructed with a
duplicated opening brace. -/
theorem single_object_gets_brace_prepended_witness :
    containsSeq boundarySep cSingleObj = false ∧
      containsSeq boundarySepTight cSingleObj = false ∧
      buildUpdatedChunks cSingleObj = ['{' :: cSingleObj] :=
  ⟨by decide, by decide,
    single_object_gets_brace_prepended cSingleObj (by decide) (by decide)⟩

/-- C4 counterexample: on a file whose open fails, `read_operator_catalog`
panics instead of propagating an explicit error value. -/
theorem open_failure_panics_not_error :
    (readOperatorCatalog cDecodeNone cDecodeNone cFsMissing ['f']).isErrored = false ∧
      (readOperatorCatalog cDecodeNone cDecodeNone cFsMissing ['f']).isPanicked = true :=
  ⟨rfl, rfl⟩

/-- C4 amended: an open failure aborts both functions through a panic, while
a read failure after a successful open propagates as an explicit error
value. -/
theorem open_failure_panics_read_failure_propagates :
    (∀ jd yd fs p, fs p = .missing →
        readOperatorCatalog jd yd fs p = .panicked openPanicMsg) ∧
      (∀ jd yd fs p e, fs p = .readFail e →
        readOperatorCatalog jd yd fs p = .errored e) ∧
      (∀ decode fs f, fs f = .missing → stepFile decode fs f = .panicked openPanicMsg) ∧
      (∀ decode fs f e, fs f = .readFail e → containsSeq configsLit f = true →
        stepFile decode fs f = .errored e) := by
  refine ⟨?_, ?_, ?_, ?_⟩
  · intro jd yd fs p h; simp [readOperatorCatalog, h]
  · intro jd yd fs p e h; simp [readOperatorCatalog, h]
  · intro decode fs f h; simp [stepFile, h]
  · intro decode fs f e h hc
    have h2 := splitSeq_length_ge_two configsLit f (by decide) hc
    rcases hx : splitSeq configsLit f with _ | ⟨a, _ | ⟨b, rest⟩⟩
    · exact absurd hx (splitSeq_ne_nil _ _)
    · rw [hx] at h2; simp at h2
    · simp [stepFile, h, hx]

/-- Witness for the amended C4 at concrete filesystems. -/
theorem open_failure_panics_read_failure_propagates_witness :
    cFsMissing ['f'] = .missing ∧
      readOperatorCatalog cDecodeNone cDecodeNone cFsMissing ['f'] = .panicked openPanicMsg ∧
      cFsReadFail cCatalogPath = .readFail "disk error" ∧
      containsSeq configsLit cCatalogPath = true ∧
      stepFile cDecodeNone cFsReadFail cCatalogPath = .errored "disk error" :=
  ⟨rfl, open_failure_panics_read_failure_propagates.1 cDecodeNone cDecodeNone cFsMissing ['f'] rfl,
    rfl, by decide,
    open_failure_panics_read_failure_propagates.2.2.2 cDecodeNone cFsReadFail cCatalogPath
      "disk error" rfl (by decide)⟩

/-- C6 counterexample: a chunk that decodes with an absent `name` panics the
whole run; the second file is never processed and no diagnostic is
recorded. -/
theorem missing_name_panics_concrete :
    buildUpdatedConfigs cDecodeNoName cFsBrace [cCatalogPath, cOtherPath] =
      .panicked nameUnwrapMsg := rfl

/-- C6 amended: a successful decode with an absent `name` makes the chunk
loop abort through the unwrap panic, regardless of the remaining chunks;
nothing is written for the chunk and no diagnostic is recorded. -/
theorem missing_name_aborts_chunk_loop (decode : List Char → Option DeclarativeConfig)
    (comp dir : List Char) (l pos : Nat) (prev item : List Char)
    (rest : List (List Char)) (dc : DeclarativeConfig)
    (hd : decode (reconstructChunk l pos item prev) = some dc) (hn : dc.name = none) :
    chunkLoop decode comp dir l pos prev (item :: rest) = .panicked nameUnwrapMsg := by
  simp [chunkLoop, hd, hn]

/-- Witness for the amended C6 at a concrete nameless decode. -/
theorem missing_name_aborts_chunk_loop_witness :
    cDecodeNoName (reconstructChunk 1 0 ['{'] []) = some cDcNoName ∧
      cDcNoName.name = none ∧
      chunkLoop cDecodeNoName ['c'] ['d'] 1 0 [] [['{']] = .panicked nameUnwrapMsg :=
  ⟨rfl, rfl,
    missing_name_aborts_chunk_loop cDecodeNoName ['c'] ['d'] 1 0 [] ['{'] [] cDcNoName rfl rfl⟩

/-- C7 counterexample: a file whose record lacks `schema` panics the whole
indexing pass instead of being skipped with a diagnostic. -/
theorem indexer_panics_on_missing_schema :
    getDeclarativeconfigMap cDecodeNoSchema cDecodeNoSchema cFsBrace ['/', 'b', '/'] [['f']] =
      .panicked keySchemaUnwrapMsg := rfl

theorem getDCMapGo_ok (jd yd : List Char → Option DeclarativeConfig)
    (fs : List Char → FileAccess) (base : List Char) :
    ∀ walk m, (∀ f ∈ walk, okBoth (readOperatorCatalog jd yd fs (base ++ f)) = true) →
      getDCMapGo jd yd fs base walk m = .ok (mapOfWalk jd yd fs base walk m) := by
  intro walk
  induction walk with
  | nil => intro m _; rfl
  | cons f rest ih =>
    intro m hall
    have hf := hall f (by simp)
    rcases hr : readOperatorCatalog jd yd fs (base ++ f) with dc | e | msg <;> rw [hr] at hf
    · simp only [okBoth, Bool.and_eq_true] at hf
      rcases hn : dc.name with _ | nm
      · rw [hn] at hf; simp at hf
      · rcases hs : dc.schema with _ | sc
        · rw [hs] at hf; simp at hf
        · simp only [getDCMapGo, mapOfWalk, hr, hn, hs]
          exact ih _ (fun g hg => hall g (by simp [hg]))
    · simp [okBoth] at hf
    · simp [okBoth] at hf

theorem getDCMapGo_bad (jd yd : List Char → Option DeclarativeConfig)
    (fs : List Char → FileAccess) (base f : List Char) (post : List (List Char))
    (hbad : okBoth (readOperatorCatalog jd yd fs (base ++ f)) = false) :
    ∀ pre m, (∀ g ∈ pre, okBoth (readOperatorCatalog jd yd fs (base ++ g)) = true) →
      (getDCMapGo jd yd fs base (pre ++ f :: post) m).isPanicked = true := by
  intro pre
  induction pre with
  | nil =>
    intro m _
    rcases hr : readOperatorCatalog jd yd fs (base ++ f) with dc | e | msg <;> rw [hr] at hbad
    · simp only [okBoth, Bool.and_eq_false_iff] at hbad
      rcases hn : dc.name with _ | nm
      · simp [getDCMapGo, hr, hn, Outcome.isPanicked]
      · rcases hs : dc.schema with _ | sc
        · simp [getDCMapGo, hr, hn, hs, Outcome.isPanicked]
        · rw [hn, hs] at hbad; simp at hbad
    · simp [getDCMapGo, hr, Outcome.isPanicked]
    · simp [getDCMapGo, hr, Outcome.isPanicked]
  | cons g pre ih =>
    intro m hall
    have hg := hall g (by simp)
    rcases hr : readOperatorCatalog jd yd fs (base ++ g) with dc | e | msg <;> rw [hr] at hg
    · simp only [okBoth, Bool.and_eq_true] at hg
      rcases hn : dc.name with _ | nm
      · rw [hn] at hg; simp at hg
      · rcases hs : dc.schema with _ | sc
        · rw [hs] at hg; simp at hg
        · simp only [List.cons_append, getDCMapGo, hr, hn, hs]
          exact ih _ (fun g2 hg2 => hall g2 (by simp [hg2]))
    · simp [okBoth] at hg
    · simp [okBoth] at hg

/-- C7 amended: a walk file whose record fails to decode or lacks `name` or
`schema` makes the indexing pass panic through an unwrap instead of being
skipped; when every walk file decodes with both identity fields present, the
pass succeeds and the map is the insert-fold keyed `name=schema`. -/
theorem indexer_panics_or_full_map :
    (∀ jd yd fs base walk,
        (∀ f ∈ walk, okBoth (readOperatorCatalog jd yd fs (base ++ f)) = true) →
        getDeclarativeconfigMap jd yd fs base walk = .ok (mapOfWalk jd yd fs base walk [])) ∧
      (∀ jd yd fs base pre f post,
        (∀ g ∈ pre, okBoth (readOperatorCatalog jd yd fs (base ++ g)) = true) →
        okBoth (readOperatorCatalog jd yd fs (base ++ f)) = false →
        (getDeclarativeconfigMap jd yd fs base (pre ++ f :: post)).isPanicked = true) :=
  ⟨fun jd yd fs base walk hall => getDCMapGo_ok jd yd fs base walk [] hall,
    fun jd yd fs base pre f post hpre hbad => getDCMapGo_bad jd yd fs base f post hbad pre [] hpre⟩

/-- Witness for the amended C7: one good file gives the singleton map, and a
schemaless file panics the pass. -/
theorem indexer_panics_or_full_map_witness :
    (∀ f ∈ [['f']], okBoth (readOperatorCatalog (fun _ => some cDcNamed) cDecodeNone cFsBrace
        (['/', 'b', '/'] ++ f)) = true) ∧
      getDeclarativeconfigMap (fun _ => some cDcNamed) cDecodeNone cFsBrace ['/', 'b', '/'] [['f']] =
        .ok (mapOfWalk (fun _ => some cDcNamed) cDecodeNone cFsBrace ['/', 'b', '/'] [['f']] []) ∧
      okBoth (readOperatorCatalog cDecodeNoSchema cDecodeNone cFsBrace (['/', 'b', '/'] ++ ['f'])) =
        false ∧
      (getDeclarativeconfigMap cDecodeNoSchema cDecodeNone cFsBrace ['/', 'b', '/']
        ([] ++ ['f'] :: [])).isPanicked = true :=
  ⟨by decide, indexer_panics_or_full_map.1 (fun _ => some cDcNamed) cDecodeNone cFsBrace
      ['/', 'b', '/'] [['f']] (by decide),
    by decide,
    indexer_panics_or_full_map.2 cDecodeNoSchema cDecodeNone cFsBrace ['/', 'b', '/'] [] ['f'] []
      (by decide) (by decide)⟩

theorem stepFile_panics_without_configs (decode : List Char → Option DeclarativeConfig)
    (fs : List Char → FileAccess) (f : List Char) (h : containsSeq configsLit f = false) :
    (stepFile decode fs f).isPanicked = true := by
  rcases hfs : fs f with _ | e | s
  · simp [stepFile, hfs, Outcome.isPanicked]
  · simp [stepFile, hfs, splitSeq_eq_single _ _ h, Outcome.isPanicked]
  · simp [stepFile, hfs, splitSeq_eq_single _ _ h, Outcome.isPanicked]

/-- C10: a visited regular file whose path has no `/configs/` segment makes
`build_updated_configs` panic before any classification of the file content,
and consequently the walk only returns successfully when every visited file
path carries the segment. -/
theorem walk_requires_configs_path :
    (∀ decode fs f, containsSeq configsLit f = false →
        (stepFile decode fs f).isPanicked = true) ∧
      (∀ decode fs walk r, buildUpdatedConfigs decode fs walk = .ok r →
        ∀ f ∈ walk, containsSeq configsLit f = true) := by
  constructor
  · exact stepFile_panics_without_configs
  · intro decode fs walk
    induction walk with
    | nil => intro r _ f hf; simp at hf
    | cons f rest ih =>
      intro r hok g hg
      rcases hsf : stepFile decode fs f with p | e | mm
      · obtain ⟨ws, ds⟩ := p
        rcases hrest : buildUpdatedConfigs decode fs rest with p2 | e2 | m2
        · rcases List.mem_cons.mp hg with hg2 | hg2
          · subst hg2
            by_contra hc
            have hp := stepFile_panics_without_configs decode fs g (by simpa using hc)
            rw [hsf] at hp
            simp [Outcome.isPanicked] at hp
          · exact ih p2 hrest g hg2
        · simp only [buildUpdatedConfigs, hsf, hrest] at hok
          simp at hok
        · simp only [buildUpdatedConfigs, hsf, hrest] at hok
          simp at hok
      · simp only [buildUpdatedConfigs, hsf] at hok
        simp at hok
      · simp only [buildUpdatedConfigs, hsf] at hok
        simp at hok

/-- Witness for C10: a path without a configs segment panics the per-file
step. -/
theorem walk_requires_configs_path_witness :
    containsSeq configsLit ['x'] = false ∧
      (stepFile cDecodeNone cFsBrace ['x']).isPanicked = true :=
  ⟨by decide, walk_requires_configs_path.1 cDecodeNone cFsBrace ['x'] (by decide)⟩

theorem chunkLoop_ok (decode : List Char → Option DeclarativeConfig) (comp dir : List Char)
    (l : Nat) : ∀ items pos prev,
    (∀ u ∈ chunkUpdates l pos prev items, (decode u).all (fun dc => dc.name.isSome) = true) →
    chunkLoop decode comp dir l pos prev items =
      .ok (expectedWrites decode dir (chunkUpdates l pos prev items),
        expectedDiags decode comp (chunkUpdates l pos prev items)) := by
  intro items
  induction items with
  | nil => intro pos prev _; rfl
  | cons item rest ih =>
    intro pos prev hall
    have hu : reconstructChunk l pos item prev ∈ chunkUpdates l pos prev (item :: rest) := by
      simp [chunkUpdates]
    have hhead := hall _ hu
    have htail : ∀ u ∈ chunkUpdates l (pos + 1) (reconstructChunk l pos item prev) rest,
        (decode u).all (fun dc => dc.name.isSome) = true := by
      intro u huu
      exact hall u (by simp [chunkUpdates, huu])
    rcases hd : decode (reconstructChunk l pos item prev) with _ | dc
    · simp only [chunkLoop, chunkUpdates, expectedWrites, expectedDiags, hd, List.filterMap_cons]
      rw [ih (pos + 1) (reconstructChunk l pos item prev) htail]
      simp [expectedWrites, expectedDiags]
    · rw [hd] at hhead
      simp only [Option.all_some] at hhead
      rcases hn : dc.name with _ | nm
      · rw [hn] at hhead; simp at hhead
      · simp only [chunkLoop, chunkUpdates, expectedWrites, expectedDiags, hd, hn,
          List.filterMap_cons]
        rw [ih (pos + 1) (reconstructChunk l pos item prev) htail]
        simp [expectedWrites, expectedDiags]

/-- C5 counterexample: a catalog whose first chunk fails to decode and
whose second chunk decodes to a nameless record refutes the claim as
stated: instead of recording the diagnostic and processing the remaining
chunk and the remaining file, the run panics at the `name` unwrap and
nothing is written. -/
theorem decode_failure_then_nameless_chunk_panics :
    cDecodeMixed ['x', '}'] = none ∧
      cDecodeMixed ['{', 'y'] = some cDcNoName ∧
      buildUpdatedConfigs cDecodeMixed cFsC5Mixed [cCatalogPath, cOtherPath] =
        .panicked nameUnwrapMsg :=
  ⟨rfl, rfl, rfl⟩

/-- C5 amended: a decode failure of one chunk yields one diagnostic naming
the component and does not by itself stop the loop — provided every chunk
that decodes successfully carries a name; under that proviso the chunk
loop finishes in order, writing one output per successfully decoded chunk
and emitting exactly one diagnostic per chunk whose decode fails, and a
file whose step finishes normally never stops the walk over the remaining
files. Without the proviso the loop can panic at the `name` unwrap, as the
counterexample shows. -/
theorem decode_failure_diagnostic_continues :
    (∀ (decode : List Char → Option DeclarativeConfig) (comp dir : List Char)
        (items : List (List Char)),
        (∀ u ∈ chunkUpdates items.length 0 [] items,
          (decode u).all (fun dc => dc.name.isSome) = true) →
        chunkLoop decode comp dir items.length 0 [] items =
          .ok (expectedWrites decode dir (chunkUpdates items.length 0 [] items),
            expectedDiags decode comp (chunkUpdates items.length 0 [] items))) ∧
      (∀ decode fs f rest ws ds, stepFile decode fs f = .ok (ws, ds) →
        buildUpdatedConfigs decode fs (f :: rest) =
          match buildUpdatedConfigs decode fs rest with
          | .ok (ws2, ds2) => .ok (ws ++ ws2, ds ++ ds2)
          | .errored e => .errored e
          | .panicked m => .panicked m) := by
  constructor
  · intro decode comp dir items hall
    exact chunkLoop_ok decode comp dir items.length items 0 [] hall
  · intro decode fs f rest ws ds h
    simp only [buildUpdatedConfigs, h]

/-- Witness for the amended C5: a two-chunk catalog whose second chunk
fails to decode still yields the first write plus one diagnostic, and a
finished file does not stop the walk. -/
theorem decode_failure_diagnostic_continues_witness :
    (∀ u ∈ chunkUpdates 2 0 [] [['x'], ['y']],
        (cDecodeC5 u).all (fun dc => dc.name.isSome) = true) ∧
      chunkLoop cDecodeC5 ['c'] ['d'] 2 0 [] [['x'], ['y']] =
        .ok (expectedWrites cDecodeC5 ['d'] (chunkUpdates 2 0 [] [['x'], ['y']]),
          expectedDiags cDecodeC5 ['c'] (chunkUpdates 2 0 [] [['x'], ['y']])) ∧
      stepFile cDecodeC5 cFsBrace cOtherPath = .ok ([], []) ∧
      buildUpdatedConfigs cDecodeC5 cFsBrace [cOtherPath] =
        match buildUpdatedConfigs cDecodeC5 cFsBrace [] with
        | .ok (ws2, ds2) => .ok ([] ++ ws2, [] ++ ds2)
        | .errored e => .errored e
        | .panicked m => .panicked m :=
  ⟨by decide,
    decode_failure_diagnostic_continues.1 cDecodeC5 ['c'] ['d'] [['x'], ['y']] (by decide),
    rfl,
    decode_failure_diagnostic_continues.2 cDecodeC5 cFsBrace cOtherPath [] [] [] rfl⟩

theorem splitSeq_boundary_append (p t : List Char)
    (hp : containsSeq boundarySep p = false) :
    splitSeq boundarySep (p ++ boundarySep ++ t) = p :: splitSeq boundarySep t := by
  induction p with
  | nil =>
    show splitSeq boundarySep ('}' :: '\n' :: '{' :: t) = [] :: splitSeq boundarySep t
    rw [splitSeq_pos boundarySep '}' ('\n' :: '{' :: t) (seqPrefixOf_append boundarySep t)]
    rfl
  | cons c p2 ih =>
    have hps : seqPrefixOf boundarySep (c :: p2) = false := by
      simp only [containsSeq, Bool.or_eq_false_iff] at hp
      exact hp.1
    have hp2 : containsSeq boundarySep p2 = false := containsSeq_tail _ _ _ hp
    have hpre : seqPrefixOf boundarySep (c :: (p2 ++ boundarySep ++ t)) = false := by
      rcases p2 with _ | ⟨d, _ | ⟨e, p3⟩⟩
      · simp [boundarySep, seqPrefixOf]
      · simp [boundarySep, seqPrefixOf]
      · simp only [boundarySep, seqPrefixOf, List.cons_append, List.append_assoc] at hps ⊢
        simpa using hps
    have hassoc : (c :: p2) ++ boundarySep ++ t = c :: (p2 ++ boundarySep ++ t) := by simp
    rw [hassoc, splitSeq_neg boundarySep c (p2 ++ boundarySep ++ t) hpre, ih hp2]

theorem splitSeq_joinSep (ps : List (List Char)) (hne : ps ≠ [])
    (hclean : ∀ p ∈ ps, containsSeq boundarySep p = false) :
    splitSeq boundarySep (joinSep boundarySep ps) = ps := by
  induction ps with
  | nil => exact absurd rfl hne
  | cons p rest ih =>
    cases rest with
    | nil => exact splitSeq_eq_single _ _ (hclean p (by simp))
    | cons q rest2 =>
      show splitSeq boundarySep (p ++ boundarySep ++ joinSep boundarySep (q :: rest2)) = _
      rw [splitSeq_boundary_append _ _ (hclean p (by simp))]
      rw [ih (by simp) (fun x hx => hclean x (by simp [hx]))]

theorem joinSep_cons_head (sep : List Char) (c : Char) (x : List Char)
    (zs : List (List Char)) : joinSep sep ((c :: x) :: zs) = c :: joinSep sep (x :: zs) := by
  cases zs with
  | nil => rfl
  | cons z zs2 => simp [joinSep]

theorem catText_eq_joinSep :
    ∀ (rest : List (List Char)) (b : List Char), rest ≠ [] →
      catText (b :: rest) = joinSep boundarySep (('{' :: b) :: midPcs rest) := by
  intro rest
  induction rest with
  | nil => intro b h; exact absurd rfl h
  | cons b1 rest2 ih =>
    intro b _
    cases rest2 with
    | nil => simp [catText, joinSep, midPcs, boundarySep]
    | cons b2 rest3 =>
      have hmain : catText (b :: b1 :: b2 :: rest3) =
          ('{' :: (b ++ ['}'])) ++ ['\n'] ++ catText (b1 :: b2 :: rest3) := by
        simp [catText, joinSep]
      rw [hmain, ih b1 (by simp)]
      show _ = joinSep boundarySep (('{' :: b) :: b1 :: midPcs (b2 :: rest3))
      rw [joinSep_cons_head boundarySep '{' b1 (midPcs (b2 :: rest3))]
      simp [joinSep, boundarySep]

theorem containsSeq_boundary_openBrace (b : List Char)
    (h : containsSeq boundarySep b = false) :
    containsSeq boundarySep ('{' :: b) = false := by
  simp only [containsSeq, Bool.or_eq_false_iff]
  constructor
  · simp [seqPrefixOf, boundarySep]
  · exact h

theorem containsSeq_boundary_closeBrace :
    ∀ b : List Char, containsSeq boundarySep b = false →
      containsSeq boundarySep (b ++ ['}']) = false := by
  intro b
  induction b with
  | nil => intro _; simp [containsSeq, seqPrefixOf, boundarySep]
  | cons c b2 ih =>
    intro h
    have h1 : seqPrefixOf boundarySep (c :: b2) = false := by
      simp only [containsSeq, Bool.or_eq_false_iff] at h
      exact h.1
    have h2 := containsSeq_tail _ _ _ h
    show containsSeq boundarySep (c :: (b2 ++ ['}'])) = false
    simp only [containsSeq, Bool.or_eq_false_iff]
    refine ⟨?_, ih h2⟩
    rcases b2 with _ | ⟨d, _ | ⟨e, b3⟩⟩
    · simp [seqPrefixOf, boundarySep]
    · simp [seqPrefixOf, boundarySep]
    · simp only [seqPrefixOf, boundarySep, List.cons_append] at h1 ⊢
      simpa using h1

theorem midPcs_length : ∀ l : List (List Char), (midPcs l).length = l.length
  | [] => rfl
  | [_] => rfl
  | _ :: q :: rest => by simp [midPcs, midPcs_length (q :: rest)]

theorem midPcs_clean : ∀ l : List (List Char),
    (∀ b ∈ l, containsSeq boundarySep b = false) →
      ∀ x ∈ midPcs l, containsSeq boundarySep x = false
  | [] => by intro _ x hx; simp [midPcs] at hx
  | [b] => by
    intro h x hx
    simp only [midPcs, List.mem_singleton] at hx
    subst hx
    exact containsSeq_boundary_closeBrace b (h b (by simp))
  | b :: q :: rest => by
    intro h x hx
    rcases List.mem_cons.mp hx with hx2 | hx2
    · subst hx2; exact h x (by simp)
    · exact midPcs_clean (q :: rest) (fun y hy => h y (by simp [hy])) x hx2

theorem chunkUpdates_mid (n : Nat) (hn : 2 ≤ n) :
    ∀ (rest : List (List Char)) (pos : Nat) (prev : List Char), rest ≠ [] →
      pos + (midPcs rest).length = n → 1 ≤ pos →
      chunkUpdates n pos prev (midPcs rest) = rest.map (fun b => '{' :: (b ++ ['}'])) := by
  intro rest
  induction rest with
  | nil => intro pos prev h; exact absurd rfl h
  | cons b rest2 ih =>
    intro pos prev _ hlen hpos
    cases rest2 with
    | nil =>
      simp only [midPcs, List.length_singleton] at hlen
      have hp0 : ¬pos = 0 := by omega
      have hpl : pos = n - 1 := by omega
      have hp2 : ¬(0 < pos ∧ pos ≤ n - 2) := by omega
      simp only [midPcs, chunkUpdates, reconstructChunk, if_neg hp0, if_pos hpl, if_neg hp2]
      simp
    | cons b2 rest3 =>
      have hlen2 : (midPcs (b :: b2 :: rest3)).length = 1 + (midPcs (b2 :: rest3)).length := by
        simp [midPcs]; omega
      have hmlen : (midPcs (b2 :: rest3)).length = rest3.length + 1 := by
        rw [midPcs_length]; simp
      have hp0 : ¬pos = 0 := by omega
      have hpl : ¬pos = n - 1 := by rw [hlen2] at hlen; omega
      have hp2 : 0 < pos ∧ pos ≤ n - 2 := by rw [hlen2] at hlen; omega
      show chunkUpdates n pos prev (b :: midPcs (b2 :: rest3)) = _
      simp only [chunkUpdates, reconstructChunk, if_neg hp0, if_neg hpl, if_pos hp2]
      rw [ih (pos + 1) ('{' :: (b ++ ['}'])) (by simp) (by rw [hlen2] at hlen; omega) (by omega)]
      simp

/-- C1: a catalog text of `N` (at least two) JSON object texts joined by the
newline boundary literal, the literal occurring nowhere inside the object
bodies, is split and reconstructed by `build_updated_configs` into exactly
`N` texts in original order, each equal to its original standalone object
text (first piece: closing brace appended; last piece: opening brace
prepended; interior pieces: both). -/
theorem blob_split_reconstructs_objects (bs : List (List Char)) (h2 : 2 ≤ bs.length)
    (hfree : ∀ b ∈ bs, containsSeq boundarySep b = false) :
    buildUpdatedChunks (catText bs) = bs.map (fun b => '{' :: (b ++ ['}'])) ∧
      (buildUpdatedChunks (catText bs)).length = bs.length := by
  obtain ⟨b0, rest, rfl⟩ : ∃ b0 rest, bs = b0 :: rest := by
    cases bs with
    | nil => simp at h2
    | cons x xs => exact ⟨x, xs, rfl⟩
  have hrne : rest ≠ [] := by
    cases rest with
    | nil => simp at h2
    | cons x xs => simp
  have hcleanp : ∀ p ∈ ('{' :: b0) :: midPcs rest, containsSeq boundarySep p = false := by
    intro p hp
    rcases List.mem_cons.mp hp with hp2 | hp2
    · subst hp2
      exact containsSeq_boundary_openBrace b0 (hfree b0 (by simp))
    · exact midPcs_clean rest (fun y hy => hfree y (by simp [hy])) p hp2
  have hsplit : splitSeq boundarySep (catText (b0 :: rest)) = ('{' :: b0) :: midPcs rest := by
    rw [catText_eq_joinSep rest b0 hrne]
    exact splitSeq_joinSep _ (by simp) hcleanp
  have hlenp : (('{' :: b0) :: midPcs rest).length = (b0 :: rest).length := by
    simp [midPcs_length]
  have hchunks : splitChunks (catText (b0 :: rest)) = ('{' :: b0) :: midPcs rest := by
    rw [splitChunks, hsplit, if_neg]
    rw [hlenp]
    have := h2
    simp only [List.length_cons] at this ⊢
    omega
  have hfirst : buildUpdatedChunks (catText (b0 :: rest)) =
      ('{' :: (b0 ++ ['}'])) :: chunkUpdates (('{' :: b0) :: midPcs rest).length 1
        ('{' :: (b0 ++ ['}'])) (midPcs rest) := by
    rw [buildUpdatedChunks, hchunks]
    have hn2 : 2 ≤ (('{' :: b0) :: midPcs rest).length := by
      rw [hlenp]; exact h2
    have hq0 : ¬(0 : Nat) = (('{' :: b0) :: midPcs rest).length - 1 := by omega
    have hq2 : ¬((0 : Nat) < 0 ∧ (0 : Nat) ≤ (('{' :: b0) :: midPcs rest).length - 2) := by omega
    simp only [chunkUpdates, reconstructChunk, if_pos rfl, if_neg hq0, if_neg hq2]
    simp
  constructor
  · rw [hfirst]
    rw [chunkUpdates_mid (('{' :: b0) :: midPcs rest).length (by rw [hlenp]; exact h2) rest 1
      ('{' :: (b0 ++ ['}'])) hrne (by simp; omega) (by omega)]
    simp
  · rw [hfirst]
    rw [chunkUpdates_mid (('{' :: b0) :: midPcs rest).length (by rw [hlenp]; exact h2) rest 1
      ('{' :: (b0 ++ ['}'])) hrne (by simp; omega) (by omega)]
    simp

/-- Witness for C1 at two one-character object bodies. -/
theorem blob_split_reconstructs_objects_witness :
    2 ≤ ([['a'], ['b']] : List (List Char)).length ∧
      (∀ b ∈ ([['a'], ['b']] : List (List Char)), containsSeq boundarySep b = false) ∧
      buildUpdatedChunks (catText [['a'], ['b']]) =
        ([['a'], ['b']] : List (List Char)).map (fun b => '{' :: (b ++ ['}'])) :=
  ⟨by decide, by decide,
    (blob_split_reconstructs_objects [['a'], ['b']] (by decide) (by decide)).1⟩
theorem dropDigits_nil_append (x : List Char) (h : dropDigits x = []) :
    ∀ y, dropDigits (x ++ y) = dropDigits y := by
  induction x with
  | nil => intro y; rfl
  | cons c cs ih =>
    by_cases hc : isDigitCh c = true
    · simp only [dropDigits, if_pos hc] at h
      intro y
      show dropDigits (c :: (cs ++ y)) = dropDigits y
      simp only [dropDigits, if_pos hc]
      exact ih h y
    · simp only [dropDigits, if_neg hc] at h
      exact absurd h (by simp)

theorem dropDigits_cons_append (x : List Char) (c : Char) (r : List Char)
    (h : dropDigits x = c :: r) : ∀ y, dropDigits (x ++ y) = c :: (r ++ y) := by
  induction x with
  | nil => simp [dropDigits] at h
  | cons e x2 ih =>
    by_cases he : isDigitCh e = true
    · simp only [dropDigits, if_pos he] at h
      intro y
      show dropDigits (e :: (x2 ++ y)) = c :: (r ++ y)
      simp only [dropDigits, if_pos he]
      exact ih h y
    · simp only [dropDigits, if_neg he] at h
      injection h with h1 h2
      subst h1
      subst h2
      intro y
      show dropDigits (e :: (x2 ++ y)) = e :: (x2 ++ y)
      simp only [dropDigits, if_neg he]

theorem fracTail_ne_dot (e : Char) (ds : List Char) (he : ¬e = '.') :
    fracTail (e :: ds) = e :: ds := by
  rw [fracTail.eq_def]
  split
  · rename_i d ds2 heq
    injection heq with h1 h2
    exact absurd h1 he
  · rfl

theorem sepOk_dropDigits (t : List Char) (h : sepOk t = true) : dropDigits t = t := by
  rcases t with _ | ⟨c, _ | ⟨d, rest⟩⟩
  · rfl
  · simp only [sepOk] at h
    simp only [dropDigits]
    rw [if_neg (by simpa using h)]
  · simp only [sepOk, Bool.and_eq_true] at h
    simp only [dropDigits]
    rw [if_neg (by simpa using h.1)]

theorem sepOk_fracTail (t : List Char) (h : sepOk t = true) : fracTail t = t := by
  rcases t with _ | ⟨c, _ | ⟨d, rest⟩⟩
  · rfl
  · by_cases hc : c = '.'
    · subst hc; rfl
    · exact fracTail_ne_dot c [] hc
  · by_cases hc : c = '.'
    · subst hc
      simp only [sepOk, Bool.and_eq_true] at h
      have hd : ¬isDigitCh d = true := by
        have h2 := h.2
        simp at h2
        simp [h2]
      simp only [fracTail]
      rw [if_neg hd]
    · exact fracTail_ne_dot c (d :: rest) hc

theorem numTail_append_exact (v : List Char) (hv : numTail v = some []) (t : List Char)
    (hdt : dropDigits t = t) (hft : fracTail t = t) : numTail (v ++ t) = some t := by
  rcases v with _ | ⟨c, cs⟩
  · simp [numTail] at hv
  · simp only [numTail] at hv
    by_cases hc : isDigitCh c = true
    · rw [if_pos hc] at hv
      have hx : fracTail (dropDigits cs) = [] := Option.some.inj hv
      show numTail (c :: (cs ++ t)) = some t
      simp only [numTail, if_pos hc]
      rcases hdd : dropDigits cs with _ | ⟨e, ds⟩
      · rw [dropDigits_nil_append cs hdd t, hdt, hft]
      · rw [hdd] at hx
        by_cases he : e = '.'
        · subst he
          rcases ds with _ | ⟨d, ds2⟩
          · simp [fracTail] at hx
          · simp only [fracTail] at hx
            by_cases hd : isDigitCh d = true
            · rw [if_pos hd] at hx
              rw [dropDigits_cons_append cs '.' (d :: ds2) hdd t]
              show some (fracTail ('.' :: d :: (ds2 ++ t))) = some t
              simp only [fracTail]
              rw [if_pos hd, dropDigits_nil_append ds2 hx t, hdt]
            · rw [if_neg hd] at hx
              exact absurd hx (by simp)
        · rw [fracTail_ne_dot e ds he] at hx
          exact absurd hx (by simp)
    · rw [if_neg hc] at hv
      exact absurd hv (by simp)

theorem numTail_append_quote (v r : List Char) (hv : numTail v = some ('"' :: r))
    (t : List Char) : numTail (v ++ t) = some ('"' :: (r ++ t)) := by
  rcases v with _ | ⟨c, cs⟩
  · simp [numTail] at hv
  · simp only [numTail] at hv
    by_cases hc : isDigitCh c = true
    · rw [if_pos hc] at hv
      have hx : fracTail (dropDigits cs) = '"' :: r := Option.some.inj hv
      show numTail (c :: (cs ++ t)) = some ('"' :: (r ++ t))
      simp only [numTail, if_pos hc]
      rcases hdd : dropDigits cs with _ | ⟨e, ds⟩
      · rw [hdd] at hx
        simp [fracTail] at hx
      · rw [hdd] at hx
        by_cases he : e = '.'
        · subst he
          rcases ds with _ | ⟨d, ds2⟩
          · simp [fracTail] at hx
          · simp only [fracTail] at hx
            by_cases hd : isDigitCh d = true
            · rw [if_pos hd] at hx
              rw [dropDigits_cons_append cs '.' (d :: ds2) hdd t]
              show some (fracTail ('.' :: d :: (ds2 ++ t))) = some ('"' :: (r ++ t))
              simp only [fracTail]
              rw [if_pos hd, dropDigits_cons_append ds2 '"' r hx t]
            · rw [if_neg hd] at hx
              exact absurd hx (by simp)
        · rw [fracTail_ne_dot e ds he] at hx
          injection hx with h1 h2
          subst h1
          subst h2
          rw [dropDigits_cons_append cs '"' ds hdd t]
          rw [fracTail_ne_dot '"' (ds ++ t) (by decide)]
    · rw [if_neg hc] at hv
      exact absurd hv (by simp)

theorem badValueTail_of_numTail_some (s r : List Char) (h : numTail s = some r) :
    badValueTail s = some r := by
  rw [badValueTail, h]

theorem badValueTail_of_numTail_none (s : List Char) (h : numTail s = none) :
    badValueTail s = quotedOrNullTail s := by
  rw [badValueTail, h]

theorem quotedTail_eq_some (rest r : List Char) (h : quotedTail rest = some r) :
    numTail rest = some ('"' :: r) := by
  rcases hq : numTail rest with _ | r2
  · simp only [quotedTail, hq] at h
    exact Option.noConfusion h
  · simp only [quotedTail, hq] at h
    rcases r2 with _ | ⟨c2, r3⟩
    · exact Option.noConfusion h
    · replace h : (if c2 = '"' then some r3 else none) = some r := h
      by_cases hc2 : c2 = '"'
      · rw [if_pos hc2] at h
        cases Option.some.inj h
        subst hc2
        rfl
      · rw [if_neg hc2] at h
        exact Option.noConfusion h

theorem nullTail_eq_some (s r : List Char) (h : nullTail s = some r) :
    s = 'n' :: 'u' :: 'l' :: 'l' :: r := by
  rcases s with _ | ⟨c1, _ | ⟨c2, _ | ⟨c3, _ | ⟨c4, r2⟩⟩⟩⟩
  · exact Option.noConfusion h
  · exact Option.noConfusion h
  · exact Option.noConfusion h
  · exact Option.noConfusion h
  · replace h : (if c1 = 'n' ∧ c2 = 'u' ∧ c3 = 'l' ∧ c4 = 'l' then some r2 else none) =
        some r := h
    by_cases hc : c1 = 'n' ∧ c2 = 'u' ∧ c3 = 'l' ∧ c4 = 'l'
    · rw [if_pos hc] at h
      obtain ⟨rfl, rfl, rfl, rfl⟩ := hc
      cases Option.some.inj h
      rfl
    · rw [if_neg hc] at h
      exact Option.noConfusion h

theorem dropDigits_fracTail_parallel (cs w : List Char) :
    ∃ z, fracTail (dropDigits (cs ++ ('"' :: w))) = z ++ ('"' :: w) ∧
      fracTail (dropDigits (cs ++ ['"'])) = z ++ ['"'] := by
  have hquote : ∀ y : List Char, dropDigits ('"' :: y) = '"' :: y := by
    intro y
    simp only [dropDigits]
    rw [if_neg (by decide)]
  rcases hdd : dropDigits cs with _ | ⟨e, r⟩
  · refine ⟨[], ?_, ?_⟩ <;> rw [dropDigits_nil_append cs hdd]
    · rw [hquote w, fracTail_ne_dot '"' w (by decide)]
      rfl
    · rw [show (['"'] : List Char) = '"' :: [] from rfl, hquote [],
        fracTail_ne_dot '"' [] (by decide)]
      rfl
  · by_cases he : e = '.'
    · subst he
      rcases r with _ | ⟨d, r2⟩
      · refine ⟨['.'], ?_, ?_⟩ <;> rw [dropDigits_cons_append cs '.' [] hdd]
        · simp only [List.nil_append, fracTail]
          rw [if_neg (by decide)]
          rfl
        · simp only [List.nil_append, fracTail]
          rw [if_neg (by decide)]
          rfl
      · by_cases hd : isDigitCh d = true
        · rcases hdd2 : dropDigits r2 with _ | ⟨f, r3⟩
          · refine ⟨[], ?_, ?_⟩ <;> rw [dropDigits_cons_append cs '.' (d :: r2) hdd] <;>
              simp only [List.cons_append, fracTail] <;> rw [if_pos hd] <;>
              rw [dropDigits_nil_append r2 hdd2]
            · rw [hquote w]
              rfl
            · rw [show (['"'] : List Char) = '"' :: [] from rfl, hquote []]
              rfl
          · refine ⟨f :: r3, ?_, ?_⟩ <;> rw [dropDigits_cons_append cs '.' (d :: r2) hdd] <;>
              simp only [List.cons_append, fracTail] <;> rw [if_pos hd] <;>
              rw [dropDigits_cons_append r2 f r3 hdd2]
        · refine ⟨'.' :: d :: r2, ?_, ?_⟩ <;> rw [dropDigits_cons_append cs '.' (d :: r2) hdd] <;>
            simp only [List.cons_append, fracTail] <;> rw [if_neg hd]
    · refine ⟨e :: r, ?_, ?_⟩ <;> rw [dropDigits_cons_append cs e r hdd] <;>
        rw [fracTail_ne_dot e _ he] <;> rfl

theorem numTail_parallel (x w : List Char) :
    (numTail (x ++ ('"' :: w)) = none ∧ numTail (x ++ ['"']) = none) ∨
      ∃ z, numTail (x ++ ('"' :: w)) = some (z ++ ('"' :: w)) ∧
        numTail (x ++ ['"']) = some (z ++ ['"']) := by
  rcases x with _ | ⟨c, cs⟩
  · exact Or.inl ⟨rfl, rfl⟩
  · by_cases hc : isDigitCh c = true
    · right
      obtain ⟨z, hz1, hz2⟩ := dropDigits_fracTail_parallel cs w
      refine ⟨z, ?_, ?_⟩
      · show numTail (c :: (cs ++ ('"' :: w))) = _
        simp only [numTail, if_pos hc, hz1]
      · show numTail (c :: (cs ++ ['"'])) = _
        simp only [numTail, if_pos hc, hz2]
    · left
      constructor
      · show numTail (c :: (cs ++ ('"' :: w))) = none
        simp only [numTail, if_neg hc]
      · show numTail (c :: (cs ++ ['"'])) = none
        simp only [numTail, if_neg hc]

theorem nullTail_quote_parallel (c : Char) (x2 w : List Char) :
    (nullTail ((c :: x2) ++ ('"' :: 'v' :: w))).isSome =
      (nullTail ((c :: x2) ++ ['"'])).isSome := by
  rcases x2 with _ | ⟨b, _ | ⟨b2, _ | ⟨b3, x5⟩⟩⟩
  · rcases w with _ | ⟨e, w2⟩
    · rfl
    · show (if c = 'n' ∧ '"' = 'u' ∧ 'v' = 'l' ∧ e = 'l' then some w2 else none).isSome =
        (nullTail [c, '"']).isSome
      rw [if_neg (by simp)]
      rfl
  · show (if c = 'n' ∧ b = 'u' ∧ '"' = 'l' ∧ 'v' = 'l' then some w else none).isSome =
      (nullTail [c, b, '"']).isSome
    rw [if_neg (by simp)]
    rfl
  · show (if c = 'n' ∧ b = 'u' ∧ b2 = 'l' ∧ '"' = 'l' then some ('v' :: w) else
        none).isSome =
      (if c = 'n' ∧ b = 'u' ∧ b2 = 'l' ∧ '"' = 'l' then some [] else none).isSome
    rw [if_neg (by simp), if_neg (by simp)]
  · show (if c = 'n' ∧ b = 'u' ∧ b2 = 'l' ∧ b3 = 'l' then
        some (x5 ++ '"' :: 'v' :: w) else none).isSome =
      (if c = 'n' ∧ b = 'u' ∧ b2 = 'l' ∧ b3 = 'l' then some (x5 ++ ['"']) else none).isSome
    by_cases hcond : c = 'n' ∧ b = 'u' ∧ b2 = 'l' ∧ b3 = 'l'
    · rw [if_pos hcond, if_pos hcond]
      rfl
    · rw [if_neg hcond, if_neg hcond]

theorem badValueTail_quote_parallel (x w : List Char) :
    (badValueTail (x ++ ('"' :: 'v' :: w))).isSome =
      (badValueTail (x ++ ['"'])).isSome := by
  rcases numTail_parallel x ('v' :: w) with ⟨h1, h2⟩ | ⟨z, h1, h2⟩
  · rw [badValueTail_of_numTail_none _ h1, badValueTail_of_numTail_none _ h2]
    rcases x with _ | ⟨c, x2⟩
    · rfl
    · show (quotedOrNullTail (c :: (x2 ++ '"' :: 'v' :: w))).isSome =
        (quotedOrNullTail (c :: (x2 ++ ['"']))).isSome
      simp only [quotedOrNullTail]
      by_cases hc : c = '"'
      · rw [if_pos hc, if_pos hc]
        rcases numTail_parallel x2 ('v' :: w) with ⟨g1, g2⟩ | ⟨z2, g1, g2⟩
        · simp only [quotedTail, g1, g2]
        · simp only [quotedTail, g1, g2]
          rcases z2 with _ | ⟨g, z3⟩
          · rfl
          · show (if g = '"' then some (z3 ++ ('"' :: 'v' :: w)) else none).isSome =
              (if g = '"' then some (z3 ++ ['"']) else none).isSome
            by_cases hg : g = '"'
            · rw [if_pos hg, if_pos hg]
              rfl
            · rw [if_neg hg, if_neg hg]
      · rw [if_neg hc, if_neg hc]
        exact nullTail_quote_parallel c x2 w
  · rw [badValueTail_of_numTail_some _ _ h1, badValueTail_of_numTail_some _ _ h2]
    rfl

theorem badValueTail_append_quote_isSome (x : List Char)
    (h : (badValueTail x).isSome = true) : (badValueTail (x ++ ['"'])).isSome = true := by
  rcases hnum : numTail x with _ | r
  · rw [badValueTail_of_numTail_none _ hnum] at h
    rcases x with _ | ⟨c, rest⟩
    · simp [quotedOrNullTail] at h
    · simp only [quotedOrNullTail] at h
      by_cases hc : c = '"'
      · rw [if_pos hc] at h
        rcases hqt : quotedTail rest with _ | r2
        · rw [hqt] at h
          simp at h
        · have hnr := quotedTail_eq_some rest r2 hqt
          have hnr2 := numTail_append_quote rest r2 hnr ['"']
          subst hc
          have hnone : numTail (('"' :: rest) ++ ['"']) = none := rfl
          rw [badValueTail_of_numTail_none _ hnone]
          show (quotedTail (rest ++ ['"'])).isSome = true
          simp only [quotedTail, hnr2]
          rfl
      · rw [if_neg hc] at h
        rcases hnt : nullTail (c :: rest) with _ | r2
        · rw [hnt] at h
          simp at h
        · have hshape := nullTail_eq_some _ _ hnt
          rw [hshape]
          rfl
  · rcases x with _ | ⟨c, cs⟩
    · simp [numTail] at hnum
    · simp only [numTail] at hnum
      by_cases hc : isDigitCh c = true
      · have hq : numTail ((c :: cs) ++ ['"']) =
            some (fracTail (dropDigits (cs ++ ['"']))) := by
          show numTail (c :: (cs ++ ['"'])) = _
          simp only [numTail, if_pos hc]
        rw [badValueTail_of_numTail_some _ _ hq]
        rfl
      · rw [if_neg hc] at hnum
        exact absurd hnum (by simp)

theorem badValueTail_append (v t : List Char) (hv : badValueTail v = some [])
    (hdt : dropDigits t = t) (hft : fracTail t = t) : badValueTail (v ++ t) = some t := by
  rcases hnum : numTail v with _ | r1
  · have hv2 : quotedOrNullTail v = some [] := by
      rw [← badValueTail_of_numTail_none v hnum]
      exact hv
    rcases v with _ | ⟨c, rest⟩
    · simp [quotedOrNullTail] at hv2
    · simp only [quotedOrNullTail] at hv2
      by_cases hc : c = '"'
      · rw [if_pos hc] at hv2
        have hnr := quotedTail_eq_some rest [] hv2
        have h2 := numTail_append_quote rest [] hnr t
        simp only [List.nil_append] at h2
        subst hc
        show badValueTail ('"' :: (rest ++ t)) = some t
        have hq : numTail ('"' :: (rest ++ t)) = none := rfl
        rw [badValueTail_of_numTail_none _ hq]
        show quotedTail (rest ++ t) = some t
        simp only [quotedTail, h2]
        rfl
      · rw [if_neg hc] at hv2
        have hshape := nullTail_eq_some _ _ hv2
        rw [hshape]
        rfl
  · have hr : some r1 = some [] := by
      rw [← badValueTail_of_numTail_some v r1 hnum]
      exact hv
    obtain rfl : r1 = [] := Option.some.inj hr
    exact badValueTail_of_numTail_some (v ++ t) t (numTail_append_exact v hnum t hdt hft)

theorem dropDigits_le : ∀ x : List Char, (dropDigits x).length ≤ x.length := by
  intro x
  induction x with
  | nil => simp [dropDigits]
  | cons c cs ih =>
    by_cases h : isDigitCh c = true
    · simp only [dropDigits, if_pos h]; simp; omega
    · simp only [dropDigits, if_neg h]; simp

theorem fracTail_le (x : List Char) : (fracTail x).length ≤ x.length := by
  rw [fracTail.eq_def]
  split
  · rename_i d ds
    split
    · have := dropDigits_le ds; simp; omega
    · simp
  · simp

theorem numTail_le (s r : List Char) (h : numTail s = some r) : r.length ≤ s.length := by
  rcases s with _ | ⟨c, cs⟩
  · simp [numTail] at h
  · simp only [numTail] at h
    by_cases hc : isDigitCh c = true
    · rw [if_pos hc] at h
      have h2 := Option.some.inj h
      subst h2
      have l1 := fracTail_le (dropDigits cs)
      have l2 := dropDigits_le cs
      simp
      omega
    · rw [if_neg hc] at h
      exact absurd h (by simp)

theorem badValueTail_le (s r0 : List Char) (h : badValueTail s = some r0) :
    r0.length ≤ s.length := by
  rcases hnum : numTail s with _ | r1
  · have h2 : quotedOrNullTail s = some r0 := by
      rw [← badValueTail_of_numTail_none s hnum]
      exact h
    rcases s with _ | ⟨c, rest⟩
    · simp [quotedOrNullTail] at h2
    · simp only [quotedOrNullTail] at h2
      by_cases hc : c = '"'
      · rw [if_pos hc] at h2
        have hnr := quotedTail_eq_some rest r0 h2
        have := numTail_le rest _ hnr
        simp at this ⊢
        omega
      · rw [if_neg hc] at h2
        have hshape := nullTail_eq_some _ _ h2
        have := congrArg List.length hshape
        simp at this ⊢
        omega
  · have h2 : some r1 = some r0 := by
      rw [← badValueTail_of_numTail_some s r1 hnum]
      exact h
    obtain rfl : r1 = r0 := Option.some.inj h2
    have := numTail_le s _ hnum
    omega

theorem repairGo_fuel_any :
    ∀ f g s, s.length ≤ f → s.length ≤ g → repairGo f s = repairGo g s := by
  intro f
  induction f with
  | zero =>
    intro g s hf _
    cases s with
    | nil => cases g <;> rfl
    | cons c cs => simp at hf
  | succ f ih =>
    intro g s hf hg
    cases s with
    | nil => cases g <;> rfl
    | cons c cs =>
      cases g with
      | zero => simp at hg
      | succ g =>
        simp only [repairGo]
        simp only [List.length_cons] at hf hg
        by_cases hp : seqPrefixOf valueMarker (c :: cs) = true
        · rw [if_pos hp, if_pos hp]
          rcases hb : badValueTail (List.drop 9 (c :: cs)) with _ | rest
          · show c :: repairGo f cs = c :: repairGo g cs
            rw [ih g cs (by omega) (by omega)]
          · have hle := badValueTail_le _ _ hb
            simp only [List.length_drop, List.length_cons] at hle
            show placeholderText ++ repairGo f rest = placeholderText ++ repairGo g rest
            rw [ih g rest (by omega) (by omega)]
        · rw [if_neg hp, if_neg hp]
          rw [ih g cs (by omega) (by omega)]

theorem repairValues_no_match (c : Char) (cs : List Char)
    (h : malformedHead (c :: cs) = false) : repairValues (c :: cs) = c :: repairValues cs := by
  show repairGo (cs.length + 1) (c :: cs) = _
  simp only [repairGo]
  simp only [malformedHead, Bool.and_eq_false_iff] at h
  rcases h with h | h
  · rw [if_neg (by simp [h])]
    rfl
  · have hn : badValueTail (List.drop 9 (c :: cs)) = none := by
      rcases hb : badValueTail (List.drop 9 (c :: cs)) with _ | r
      · rfl
      · rw [hb] at h; simp at h
    by_cases hp : seqPrefixOf valueMarker (c :: cs) = true
    · rw [if_pos hp, hn]
      rfl
    · rw [if_neg hp]
      rfl

theorem repairValues_match (c : Char) (cs rest : List Char)
    (hp : seqPrefixOf valueMarker (c :: cs) = true)
    (hb : badValueTail (List.drop 9 (c :: cs)) = some rest) :
    repairValues (c :: cs) = placeholderText ++ repairValues rest := by
  show repairGo (cs.length + 1) (c :: cs) = _
  simp only [repairGo]
  rw [if_pos hp, hb]
  show placeholderText ++ repairGo cs.length rest = placeholderText ++ repairValues rest
  have hle := badValueTail_le _ _ hb
  simp only [List.length_drop, List.length_cons] at hle
  rw [repairGo_fuel_any cs.length rest.length rest (by omega) (le_refl _)]
  exact rfl

theorem seqPrefixOf_append_right (p u y : List Char) (h : p.length ≤ u.length) :
    seqPrefixOf p (u ++ y) = seqPrefixOf p u := by
  have ht : (u ++ y).take p.length = u.take p.length := List.take_append_of_le_length h
  have hiff : (seqPrefixOf p (u ++ y) = true) ↔ (seqPrefixOf p u = true) := by
    rw [seqPrefixOf_iff_take, seqPrefixOf_iff_take, ht]
  cases hb : seqPrefixOf p u <;> cases hb2 : seqPrefixOf p (u ++ y) <;> simp_all

theorem marker_no_straddle (u w : List Char) (h1 : u ≠ []) (h2 : u.length ≤ 8) :
    seqPrefixOf valueMarker (u ++ (valueMarker ++ w)) = false := by
  cases hb : seqPrefixOf valueMarker (u ++ (valueMarker ++ w))
  · rfl
  · exfalso
    have hp : valueMarker = (u ++ (valueMarker ++ w)).take valueMarker.length :=
      (seqPrefixOf_iff_take _ _).mp hb
    rw [List.take_append_eq_append_take] at hp
    have hu9 : u.take valueMarker.length = u := by
      apply List.take_of_length_le
      simp [valueMarker]
      omega
    rw [hu9] at hp
    have hmlen : valueMarker.length - u.length ≤ valueMarker.length := by omega
    rw [List.take_append_of_le_length (by simp [valueMarker])] at hp
    have hdrop := congrArg (List.drop u.length) hp
    rw [List.drop_append_of_le_length (le_refl u.length)] at hdrop
    have hd2 : List.drop u.length u = [] := by simp
    rw [hd2] at hdrop
    simp only [List.nil_append] at hdrop
    have hk1 : 1 ≤ u.length := by
      cases u with
      | nil => exact absurd rfl h1
      | cons a as => simp
    set k := u.length with hk
    interval_cases k <;> simp [valueMarker] at hdrop

theorem noMalformed_head (c : Char) (cs : List Char) (h : noMalformed (c :: cs) = true) :
    malformedHead (c :: cs) = false := by
  simp only [noMalformed, Bool.and_eq_true] at h
  simpa using h.1

theorem noMalformed_tail (c : Char) (cs : List Char) (h : noMalformed (c :: cs) = true) :
    noMalformed cs = true := by
  simp only [noMalformed, Bool.and_eq_true] at h
  exact h.2

theorem noMalformed_drop_quote : ∀ s, noMalformed (s ++ ['"']) = true →
    noMalformed s = true := by
  intro s
  induction s with
  | nil => intro _; rfl
  | cons c s2 ih =>
    intro h
    have hh : malformedHead (c :: (s2 ++ ['"'])) = false := noMalformed_head _ _ h
    have ht : noMalformed (s2 ++ ['"']) = true := noMalformed_tail c (s2 ++ ['"']) h
    simp only [noMalformed, Bool.and_eq_true]
    refine ⟨?_, ih ht⟩
    cases hm : malformedHead (c :: s2)
    · simp
    · exfalso
      simp only [malformedHead, Bool.and_eq_true] at hm
      have hp := hm.1
      have hlen : 9 ≤ (c :: s2).length := by
        have := seqPrefixOf_length_le _ _ hp
        simpa [valueMarker] using this
      have hpq : seqPrefixOf valueMarker (c :: (s2 ++ ['"'])) = true := by
        have hloc := seqPrefixOf_append_right valueMarker (c :: s2) ['"']
          (by simpa [valueMarker] using hlen)
        rw [show ((c :: s2) ++ ['"']) = c :: (s2 ++ ['"']) from rfl] at hloc
        rw [hloc]
        exact hp
      have hd : List.drop 9 (c :: (s2 ++ ['"'])) = (List.drop 9 (c :: s2)) ++ ['"'] := by
        rw [show (c :: (s2 ++ ['"'])) = ((c :: s2) ++ ['"']) from rfl]
        exact List.drop_append_of_le_length hlen
      have hq := badValueTail_append_quote_isSome (List.drop 9 (c :: s2)) hm.2
      have hmq : malformedHead (c :: (s2 ++ ['"'])) = true := by
        simp only [malformedHead, Bool.and_eq_true]
        refine ⟨hpq, ?_⟩
        rw [hd]
        exact hq
      rw [hmq] at hh
      exact absurd hh (by simp)

theorem repairValues_append_marker :
    ∀ s, noMalformed (s ++ ['"']) = true → ∀ w,
      repairValues (s ++ (valueMarker ++ w)) = s ++ repairValues (valueMarker ++ w) := by
  intro s
  induction s with
  | nil => intro _ w; simp
  | cons c s2 ih =>
    intro hs w
    have hh : malformedHead (c :: (s2 ++ ['"'])) = false := noMalformed_head _ _ hs
    have ht : noMalformed (s2 ++ ['"']) = true := noMalformed_tail c (s2 ++ ['"']) hs
    have hmal : malformedHead (c :: (s2 ++ (valueMarker ++ w))) = false := by
      cases hp : seqPrefixOf valueMarker (c :: (s2 ++ (valueMarker ++ w)))
      · simp [malformedHead, hp]
      · by_cases hlen : 9 ≤ (c :: s2).length
        · have hp0 : seqPrefixOf valueMarker (c :: s2) = true := by
            have hloc := seqPrefixOf_append_right valueMarker (c :: s2) (valueMarker ++ w)
              (by simpa [valueMarker] using hlen)
            rw [show ((c :: s2) ++ (valueMarker ++ w)) =
              c :: (s2 ++ (valueMarker ++ w)) from rfl] at hloc
            rw [hloc] at hp
            exact hp
          have hpq : seqPrefixOf valueMarker (c :: (s2 ++ ['"'])) = true := by
            have hloc2 := seqPrefixOf_append_right valueMarker (c :: s2) ['"']
              (by simpa [valueMarker] using hlen)
            rw [show ((c :: s2) ++ ['"']) = c :: (s2 ++ ['"']) from rfl] at hloc2
            rw [hloc2]
            exact hp0
          have hbq : (badValueTail (List.drop 9 (c :: (s2 ++ ['"'])))).isSome = false := by
            simp only [malformedHead, Bool.and_eq_false_iff] at hh
            rcases hh with h | h
            · rw [hpq] at h
              exact absurd h (by simp)
            · simpa using h
          have hd1 : List.drop 9 (c :: (s2 ++ ['"'])) = (List.drop 9 (c :: s2)) ++ ['"'] := by
            rw [show (c :: (s2 ++ ['"'])) = ((c :: s2) ++ ['"']) from rfl]
            exact List.drop_append_of_le_length hlen
          have hd2 : List.drop 9 (c :: (s2 ++ (valueMarker ++ w))) =
              (List.drop 9 (c :: s2)) ++ (valueMarker ++ w) := by
            rw [show (c :: (s2 ++ (valueMarker ++ w))) =
              ((c :: s2) ++ (valueMarker ++ w)) from rfl]
            exact List.drop_append_of_le_length hlen
          have hB : (badValueTail ((List.drop 9 (c :: s2)) ++ (valueMarker ++ w))).isSome =
              (badValueTail ((List.drop 9 (c :: s2)) ++ ['"'])).isSome := by
            have := badValueTail_quote_parallel (List.drop 9 (c :: s2))
              (['a', 'l', 'u', 'e', '"', ':', ' '] ++ w)
            simpa [valueMarker] using this
          simp only [malformedHead, hp, Bool.true_and]
          rw [hd2, hB, ← hd1]
          exact hbq
        · exfalso
          have hstr := marker_no_straddle (c :: s2) w (by simp) (by simp at hlen ⊢; omega)
          rw [show ((c :: s2) ++ (valueMarker ++ w)) =
            c :: (s2 ++ (valueMarker ++ w)) from rfl] at hstr
          rw [hstr] at hp
          exact absurd hp (by simp)
    show repairValues (c :: (s2 ++ (valueMarker ++ w))) =
      c :: (s2 ++ repairValues (valueMarker ++ w))
    rw [repairValues_no_match c _ hmal, ih ht w]

theorem sepOk_dropQuote (p : List Char) (h : sepOk (p ++ ['"']) = true) :
    sepOk p = true ∧ ∀ w, sepOk (p ++ '"' :: w) = true := by
  rcases p with _ | ⟨c, _ | ⟨d, rest⟩⟩
  · constructor
    · rfl
    · intro w
      cases w with
      | nil => rfl
      | cons e w2 => simp [sepOk, isDigitCh]
  · simp only [List.cons_append, List.nil_append, sepOk] at h
    constructor
    · simpa [sepOk] using (by simp at h; simp [h.1])
    · intro w
      cases w with
      | nil => simpa [sepOk] using h
      | cons e w2 =>
        simp only [List.cons_append, List.nil_append, sepOk]
        simp at h ⊢
        exact h
  · simp only [List.cons_append] at h
    simp only [sepOk] at h
    constructor
    · simp only [sepOk]
      exact h
    · intro w
      simp only [List.cons_append, sepOk]
      exact h

theorem repairValues_rewrite (v t : List Char) (hv : badShape v = true)
    (ht : sepOk t = true) :
    repairValues (valueMarker ++ (v ++ t)) = placeholderText ++ repairValues t := by
  have hv2 : badValueTail v = some [] := by
    simpa [badShape] using hv
  have hp : seqPrefixOf valueMarker (valueMarker ++ (v ++ t)) = true :=
    seqPrefixOf_append valueMarker (v ++ t)
  have hd : List.drop 9 (valueMarker ++ (v ++ t)) = v ++ t := by
    have h9 : valueMarker.length = 9 := rfl
    rw [← h9, List.drop_left]
  have hb : badValueTail (List.drop 9 (valueMarker ++ (v ++ t))) = some t := by
    rw [hd]
    exact badValueTail_append v t hv2 (sepOk_dropDigits t ht) (sepOk_fracTail t ht)
  show repairValues ('"' :: (['v', 'a', 'l', 'u', 'e', '"', ':', ' '] ++ (v ++ t))) = _
  exact repairValues_match '"' (['v', 'a', 'l', 'u', 'e', '"', ':', ' '] ++ (v ++ t)) t hp hb

theorem occText_shape (ps : List (List Char × List Char)) :
    occText ps = [] ∨ ∃ w, occText ps = valueMarker ++ w := by
  cases ps with
  | nil => exact Or.inl rfl
  | cons p rest =>
    obtain ⟨v, seg⟩ := p
    exact Or.inr ⟨v ++ (seg ++ occText rest), by simp [occText]⟩

theorem repairValues_id_of_noMalformed : ∀ s, noMalformed s = true → repairValues s = s := by
  intro s
  induction s with
  | nil => intro _; rfl
  | cons c cs ih =>
    intro h
    rw [repairValues_no_match c cs (noMalformed_head c cs h), ih (noMalformed_tail c cs h)]

theorem repair_interleave :
    ∀ (ps : List (List Char × List Char)) (s0 : List Char),
      noMalformed (s0 ++ ['"']) = true →
      (∀ p ∈ ps, badShape p.1 = true ∧ noMalformed (p.2 ++ ['"']) = true ∧
        sepOk (p.2 ++ ['"']) = true) →
      repairValues (s0 ++ occText ps) = s0 ++ occRepaired ps := by
  intro ps
  induction ps with
  | nil =>
    intro s0 h0 _
    simp only [occText, occRepaired, List.append_nil]
    exact repairValues_id_of_noMalformed s0 (noMalformed_drop_quote s0 h0)
  | cons p rest ih =>
    intro s0 h0 hall
    obtain ⟨v, seg⟩ := p
    have h1 := hall (v, seg) (by simp)
    have hshape : occText ((v, seg) :: rest) =
        valueMarker ++ (v ++ (seg ++ occText rest)) := by
      simp [occText]
    rw [hshape]
    rw [repairValues_append_marker s0 h0 (v ++ (seg ++ occText rest))]
    have hsep : sepOk (seg ++ occText rest) = true := by
      rcases occText_shape rest with hsh | ⟨w, hsh⟩
      · rw [hsh, List.append_nil]
        exact (sepOk_dropQuote seg h1.2.2).1
      · rw [hsh]
        have := (sepOk_dropQuote seg h1.2.2).2
          ('v' :: 'a' :: 'l' :: 'u' :: 'e' :: '"' :: ':' :: ' ' :: w)
        simpa [valueMarker] using this
    rw [repairValues_rewrite v (seg ++ occText rest) h1.1 hsep]
    rw [ih seg h1.2.1 (fun q hq => hall q (by simp [hq]))]
    simp [occRepaired]

/-- C3 (spec-modelled): in a text interleaving segments with malformed
value occurrences, the repair filter replaces every malformed occurrence
(the marker followed by a bare numeric, quoted numeric, or null token) with
the canonical placeholder and copies every segment unchanged — the
segments may themselves contain benign `"value"` properties, which are
left intact; and a text with no malformed occurrence anywhere passes
through entirely unchanged. -/
theorem value_repair_rewrites_all_occurrences :
    (∀ (s0 : List Char) (ps : List (List Char × List Char)),
        noMalformed (s0 ++ ['"']) = true →
        (∀ p ∈ ps, badShape p.1 = true ∧ noMalformed (p.2 ++ ['"']) = true ∧
          sepOk (p.2 ++ ['"']) = true) →
        repairValues (s0 ++ occText ps) = s0 ++ occRepaired ps) ∧
      (∀ s, noMalformed s = true → repairValues s = s) := by
  constructor
  · intro s0 ps h0 hall
    exact repair_interleave ps s0 h0 hall
  · exact repairValues_id_of_noMalformed

/-- Witness for C3: a text mixing a malformed occurrence (`"value": 3`)
with a benign structured occurrence (`"value": {}` inside the trailing
segment) has exactly the malformed one rewritten; and a lone benign
occurrence passes through unchanged. -/
theorem value_repair_rewrites_all_occurrences_witness :
    (noMalformed (['a'] ++ ['"']) = true ∧
      (∀ p ∈ [((['3'] : List Char), valueMarker ++ ['{', '}'])],
        badShape p.1 = true ∧ noMalformed (p.2 ++ ['"']) = true ∧
          sepOk (p.2 ++ ['"']) = true) ∧
      repairValues (['a'] ++ occText [(['3'], valueMarker ++ ['{', '}'])]) =
        ['a'] ++ occRepaired [(['3'], valueMarker ++ ['{', '}'])]) ∧
      (noMalformed (valueMarker ++ ['{', '}']) = true ∧
        repairValues (valueMarker ++ ['{', '}']) = valueMarker ++ ['{', '}']) :=
  ⟨⟨by decide, by decide,
    value_repair_rewrites_all_occurrences.1 ['a'] [(['3'], valueMarker ++ ['{', '}'])]
      (by decide) (by decide)⟩,
    ⟨by decide,
      value_repair_rewrites_all_occurrences.2 (valueMarker ++ ['{', '}']) (by decide)⟩⟩
